import Mathlib

/-!
Verification of the MediVise backend document pipeline
(`backend/app/textops.py`, `backend/app/retrieval.py`,
`backend/app/llm_service_clean.py`, `backend/app/llm_service.py`).

Python strings are modelled as `List Char` (sequences of code points) or as
Lean `String`s (whose underlying data is a `List Char`); machine floats
produced by Python's true division of small non-negative integers are
modelled exactly as rationals (`ℚ`).  All character-level operations
(`lower`, `strip`, `title`, `\w`, `\s`, …) are modelled at ASCII scope,
which covers every pattern and literal the source uses.

The file is organised as definitions first (the embedding of the source),
then theorems.
-/

namespace MediVise

/-! ### Python string primitives -/

/-- The whitespace set of Python's `str.strip()` / `str.split()` / `\s`
(ASCII scope): space, tab, newline, carriage return, vertical tab, form feed. -/
def isPySpace (c : Char) : Bool :=
  c = ' ' || c = '\t' || c = '\n' || c = '\r' || c = '\x0b' || c = '\x0c'

/-- Python `str.lower()` on one character (ASCII scope), via `Char.toLower`. -/
def pyLowerChar (c : Char) : Char := Char.toLower c

/-- Python `str.lower()` (ASCII scope). -/
def pyLower (s : List Char) : List Char := s.map pyLowerChar

/-- Python `str.strip()` with no argument: drop leading and trailing
whitespace. -/
def pyStrip (s : List Char) : List Char :=
  List.rdropWhile isPySpace (s.dropWhile isPySpace)

/-- Word characters of Python's regex `\w` (ASCII scope): letters, digits,
underscore. -/
def isWordChar (c : Char) : Bool := c.isAlphanum || c = '_'

/-- `pyLower` lifted to Lean strings. -/
def pyLowerS (s : String) : String := ⟨pyLower s.toList⟩

/-- `pyStrip` lifted to Lean strings. -/
def pyStripS (s : String) : String := ⟨pyStrip s.toList⟩

/-- One step of Python `str.title()` (ASCII scope): a letter that follows a
non-letter is uppercased, a letter that follows a letter is lowercased,
other characters pass through. -/
def pyTitleChar (prevAlpha : Bool) (c : Char) : Char :=
  if c.isAlpha then (if prevAlpha then c.toLower else c.toUpper) else c

/-- Python `str.title()` on a character stream, threading whether the
previous character was a letter. -/
def pyTitleAux : Bool → List Char → List Char
  | _, [] => []
  | prevAlpha, c :: rest => pyTitleChar prevAlpha c :: pyTitleAux c.isAlpha rest

/-- Python `str.title()` (ASCII scope). -/
def pyTitle (s : List Char) : List Char := pyTitleAux false s

/-- `pyTitle` lifted to Lean strings. -/
def pyTitleS (s : String) : String := ⟨pyTitle s.toList⟩

/-! ### Text Segmenter — `textops.chunk_text_with_overlap`

```python
def chunk_text_with_overlap(text, max_chars=3000, overlap=300):
    chunks = []
    start = 0
    idx = 0
    n = len(text)
    while start < n:
        end = min(start + max_chars, n)
        chunk = text[start:end]
        chunks.append((idx, chunk))
        if end == n:
            break
        start = end - overlap
        idx += 1
    return chunks
```

The loop is modelled by a fuel-indexed recursion.  Each iteration that does
not break advances `start` by `max_chars - overlap ≥ 1` whenever
`max_chars > overlap` (the function's documented precondition), so fuel
`n + 1` is never exhausted under that precondition; exhausted fuel models
the non-terminating behaviour the Python loop would have on invalid
parameters and never occurs in any theorem below. -/

/-- Loop body of `chunk_text_with_overlap`, producing `(idx, chunk_text)`
pairs. -/
def chunkLoop (text : List Char) (maxChars overlap : Nat) :
    Nat → Nat → Nat → List (Nat × List Char)
  | 0, _, _ => []
  | fuel + 1, start, idx =>
    if start < text.length then
      let e := min (start + maxChars) text.length
      let chunk := (text.drop start).take (e - start)
      if e = text.length then [(idx, chunk)]
      else (idx, chunk) :: chunkLoop text maxChars overlap fuel (e - overlap) (idx + 1)
    else []

/-- `textops.chunk_text_with_overlap`. -/
def chunk_text_with_overlap (text : List Char) (maxChars overlap : Nat) :
    List (Nat × List Char) :=
  chunkLoop text maxChars overlap (text.length + 1) 0 0

/-- The same loop, recording the half-open span `[start, end)` each chunk
was sliced from, instead of the slice itself: entries are
`(idx, start, end)`. -/
def chunkSpansLoop (n maxChars overlap : Nat) :
    Nat → Nat → Nat → List (Nat × Nat × Nat)
  | 0, _, _ => []
  | fuel + 1, start, idx =>
    if start < n then
      let e := min (start + maxChars) n
      if e = n then [(idx, start, e)]
      else (idx, start, e) :: chunkSpansLoop n maxChars overlap fuel (e - overlap) (idx + 1)
    else []

/-- Spans of the chunks produced by `chunk_text_with_overlap`. -/
def chunkSpans (text : List Char) (maxChars overlap : Nat) : List (Nat × Nat × Nat) :=
  chunkSpansLoop text.length maxChars overlap (text.length + 1) 0 0

/-! ### JSON-Repair Loop — `_run_json_prompt`
(`llm_service_clean.py` lines 93–148; `llm_service.py` lines 113–180 is the
same control flow)

The external pieces are abstracted:
* `parse : String → Option Json` models `json.loads` (`none` =
  `JSONDecodeError`);
* `gateway : Nat → Except GatewayError String` models `_make_request` on
  the i-th call of the sequence: either the stripped response text, or one
  of the typed `HTTPException`s that `_make_request` raises
  (timeout / connection / HTTP-status / unexpected).  Indexing by call
  number absorbs the repair-prompt rewriting, which only changes the prompt
  sent on later calls.

Everything else — the line-scanning JSON block extraction, the retry
accounting, and the fallback objects — is translated from the source.  The
`Nat` paired with the result counts gateway calls made; `Except.error` in
the result models an exception escaping `_run_json_prompt` (the
`raise Exception("Failed to get valid JSON response")` after the loop,
reachable only when `max_retries == 0`, since every attempt's body either
returns or continues inside a `try/except Exception` that catches all of
`_make_request`'s typed failures). -/

/-- A JSON value, the parse target of `json.loads`. -/
inductive Json where
  | null
  | bool (b : Bool)
  | num (n : Int)
  | str (s : String)
  | arr (elems : List Json)
  | obj (fields : List (String × Json))

/-- The failure taxonomy `_make_request` raises (as 502 `HTTPException`s):
upstream timeout, transport/connection error, non-2xx HTTP status, anything
else. -/
inductive GatewayError where
  | timeout
  | connection
  | httpStatus
  | unexpected
deriving DecidableEq

/-- The exception `_run_json_prompt` raises after its loop exits without
returning. -/
inductive RunFailure where
  | noValidJson
deriving DecidableEq

/-- Python `response.split('\n')`: split at every newline, keeping empty
pieces. -/
def splitNLAux (cur : List Char) : List Char → List (List Char)
  | [] => [cur.reverse]
  | c :: rest =>
    if c = '\n' then cur.reverse :: splitNLAux [] rest
    else splitNLAux (c :: cur) rest

/-- Python `response.split('\n')`. -/
def splitNL (s : List Char) : List (List Char) := splitNLAux [] s

/-- The line scan of `_run_json_prompt`'s JSON-extraction fallback:
`json_start` is (re)set at every line whose stripped text starts with a
left brace; the scan stops at the first later line whose stripped text ends
with a right brace once `json_start` is set, returning both indices. -/
def scanBraces : List (List Char) → Nat → Option Nat → Option (Nat × Nat)
  | [], _, _ => none
  | l :: rest, i, jsonStart =>
    let t := pyStrip l
    if t.head? = some '\x7b' then scanBraces rest (i + 1) (some i)
    else
      match jsonStart with
      | some s =>
        if t.getLast? = some '\x7d' then some (s, i)
        else scanBraces rest (i + 1) (some s)
      | none => scanBraces rest (i + 1) none

/-- One attempt's parsing step of `_run_json_prompt`: strict `json.loads`,
then the brace-delimited block extraction
(`'\n'.join(lines[json_start:json_end+1])`) parsed again.  `none` means the
attempt failed to produce JSON. -/
def tryParseResponse (parse : String → Option Json) (response : String) : Option Json :=
  match parse response with
  | some j => some j
  | none =>
    match scanBraces (splitNL response.toList) 0 none with
    | some (s, e) =>
      parse ⟨List.intercalate ['\n'] (((splitNL response.toList).drop s).take (e - s + 1))⟩
    | none => none

/-- The parse-failure fallback object of `_run_json_prompt`: one
`"Summary"` section whose single bullet is the first 200 characters of the
last raw response, and no risks. -/
def jsonFallbackParse (response : String) : Json :=
  .obj [("sections", .arr [.obj [("title", .str "Summary"),
          ("bullets", .arr [.str (response.take 200)]),
          ("citations", .arr [])]]),
        ("risks", .arr [])]

/-- The exception fallback object of `_run_json_prompt`: one `"Summary"`
section with the single bullet `"Unable to process document"`, and no
risks. -/
def jsonFallbackError : Json :=
  .obj [("sections", .arr [.obj [("title", .str "Summary"),
          ("bullets", .arr [.str "Unable to process document"]),
          ("citations", .arr [])]]),
        ("risks", .arr [])]

/-- The `for attempt in range(max_retries)` loop of `_run_json_prompt`.
`fuel` is the number of loop iterations remaining
(`max_retries - attempt`); exhausted fuel is the fall-through `raise`.  The
paired `Nat` counts gateway calls made so far. -/
def runJsonLoop (parse : String → Option Json)
    (gateway : Nat → Except GatewayError String) (maxRetries : Nat) :
    Nat → Nat → Except RunFailure Json × Nat
  | 0, attempt => (.error .noValidJson, attempt)
  | fuel + 1, attempt =>
    match gateway attempt with
    | .error _ =>
      if attempt = maxRetries - 1 then (.ok jsonFallbackError, attempt + 1)
      else runJsonLoop parse gateway maxRetries fuel (attempt + 1)
    | .ok response =>
      match tryParseResponse parse response with
      | some j => (.ok j, attempt + 1)
      | none =>
        if attempt < maxRetries - 1 then runJsonLoop parse gateway maxRetries fuel (attempt + 1)
        else (.ok (jsonFallbackParse response), attempt + 1)

/-- `_run_json_prompt(system_prompt, user_prompt, max_retries)`. -/
def _run_json_prompt (parse : String → Option Json)
    (gateway : Nat → Except GatewayError String) (maxRetries : Nat) :
    Except RunFailure Json × Nat :=
  runJsonLoop parse gateway maxRetries maxRetries 0

/-- A `json.loads` stub for C2's concrete runs: parses exactly the text
consisting of a left and right brace to the empty JSON object. -/
def parseOnlyEmptyObj : String → Option Json :=
  fun s => if s.toList = ['\x7b', '\x7d'] then some (Json.obj []) else none

/-- A gateway stub for C2's counterexample: the first call raises a
connection error, the second returns a well-formed JSON object text. -/
def gatewayFailsFirst : Nat → Except GatewayError String :=
  fun i => if i = 0 then .error .connection else .ok "\x7b\x7d"

/-! ### Summary schema — `schemas_summary.py` -/

/-- `SummarySection`: a titled bullet list with citations. -/
structure SummarySection where
  title : String
  bullets : List String
  citations : List String
deriving DecidableEq

/-- `RiskFlag`: a coded risk with severity, rationale, citations.  The
`Literal` severity type is modelled as a plain string. -/
structure RiskFlag where
  code : String
  severity : String
  rationale : String
  citations : List String
deriving DecidableEq

/-- `SummaryResponse`: the shared schema of map outputs and the reduce
output. -/
structure SummaryResponse where
  doc_id : Option Int
  style : String
  sections : List SummarySection
  risks : List RiskFlag
  redactions_applied : Bool
deriving DecidableEq

/-! ### Normalizer and renderer — `llm_service_clean.py`
(`_dedupe_preserve` lines 251–260, `_coerce_single_summary` lines 232–249,
`_render_summary_markdown` lines 262–301) -/

/-- The key under which `_dedupe_preserve` deduplicates a bullet:
`(it or "").strip().lower()`. -/
def bulletKey (b : String) : String := pyLowerS (pyStripS b)

/-- Loop of `_dedupe_preserve`: skip items whose key is empty or already
seen, keep the first occurrence otherwise. -/
def dedupeAux (seen : List String) : List String → List String
  | [] => []
  | it :: rest =>
    if bulletKey it = "" ∨ bulletKey it ∈ seen then dedupeAux seen rest
    else it :: dedupeAux (bulletKey it :: seen) rest

/-- `_dedupe_preserve(items)`: deduplicate a bullet list, preserving order,
under case/whitespace-insensitive keys, dropping empty entries. -/
def _dedupe_preserve (items : List String) : List String := dedupeAux [] items

/-- The normalized form `(sec.title or "Summary").strip().title()` used for
incoming sections (Python `or`: the empty string falls back to
`"Summary"`). -/
def normTitle (t : String) : String :=
  pyTitleS (pyStripS (if t = "" then "Summary" else t))

/-- The key `(u.title or "").strip().title()` used to match an already-kept
section. -/
def coerceKey (t : String) : String := pyTitleS (pyStripS t)

/-- Merge the bullets of a duplicate section into the first kept section
with the same normalized title (the `for i, u in enumerate(...)` /
`break` loop of `_coerce_single_summary`). -/
def mergeInto : List SummarySection → String → List String → List SummarySection
  | [], _, _ => []
  | u :: us, t, bs =>
    if coerceKey u.title = t then
      { u with bullets := _dedupe_preserve (u.bullets ++ bs) } :: us
    else u :: mergeInto us t bs

/-- Main loop of `_coerce_single_summary` over the incoming sections,
threading the `seen` title set and the kept sections in order. -/
def coerceLoop (seen : List String) (acc : List SummarySection) :
    List SummarySection → List SummarySection
  | [] => acc
  | sec :: rest =>
    let t := normTitle sec.title
    if t ∈ seen then coerceLoop seen (mergeInto acc t sec.bullets) rest
    else coerceLoop (t :: seen) (acc ++ [{ sec with title := t }]) rest

/-- `_coerce_single_summary(s)`: ensure each section title appears only
once; merge bullets of duplicates. -/
def _coerce_single_summary (s : SummaryResponse) : SummaryResponse :=
  { s with sections := coerceLoop [] [] s.sections }

/-- The fixed section order of `_render_summary_markdown`. -/
def canonicalOrder : List String :=
  ["Summary", "Findings", "What It Means", "Key Medications",
   "Important Instructions Or Precautions", "Warnings Or Side Effects",
   "Red Flags", "Next Steps", "Key Highlights"]

/-- `sections_by_title.setdefault(title, [])` followed by
`extend(bullets)`: append the bullets to the entry of `title`, creating the
entry if missing. -/
def upsert : List (String × List String) → String → List String → List (String × List String)
  | [], t, bs => [(t, bs)]
  | (k, v) :: rest, t, bs =>
    if k = t then (k, v ++ bs) :: rest
    else (k, v) :: upsert rest t bs

/-- `sections_by_title.get(title, [])`: first entry with the given key, or
the empty list. -/
def lookupBullets : List (String × List String) → String → List String
  | [], _ => []
  | kv :: rest, t => if kv.1 = t then kv.2 else lookupBullets rest t

/-- The per-section bullet list the renderer stores:
`[b.strip() for b in (sec.bullets or []) if b and b.strip()]`. -/
def strippedBullets (bullets : List String) : List String :=
  (bullets.filter (fun b => decide (pyStripS b ≠ ""))).map pyStripS

/-- The grouping pass of `_render_summary_markdown`: normalize each title
and collect the stripped nonempty bullets per title. -/
def buildSectionsMap (secs : List SummarySection) : List (String × List String) :=
  secs.foldl (fun m sec => upsert m (normTitle sec.title) (strippedBullets sec.bullets)) []

/-- The markdown heading line the renderer emits for a section title. -/
def headingLine (t : String) : String := "**" ++ t ++ ":**"

/-- The lines `_render_summary_markdown` emits for one title of the fixed
order: nothing if the title has no bullets (except `Next Steps`); otherwise
the heading, then — for `Next Steps` — the first bullet verbatim, or — for
every other section — the deduplicated bullets capped at 8, each prefixed
with a dash; then a blank line. -/
def renderBlock (m : List (String × List String)) (title : String) : List String :=
  let bullets := lookupBullets m title
  if bullets = [] ∧ title ≠ "Next Steps" then []
  else if title = "Next Steps" then
    headingLine title :: ((match bullets with | [] => [] | b :: _ => [b]) ++ [""])
  else
    headingLine title :: (((_dedupe_preserve bullets).take 8).map (fun b => "- " ++ b) ++ [""])

/-- The full line list `_render_summary_markdown` builds before joining. -/
def renderLines (s : SummaryResponse) : List String :=
  (canonicalOrder.map (renderBlock (buildSectionsMap s.sections))).flatten

/-- `_render_summary_markdown(s)`: `"\n".join(lines).strip()`. -/
def _render_summary_markdown (s : SummaryResponse) : String :=
  pyStripS (String.intercalate "\n" (renderLines s))

/-- Concrete input for C3's scenario: three sections whose titles are
case/whitespace variants of `"summary"`, with overlapping bullets. -/
def summaryC3input : SummaryResponse :=
  { doc_id := none, style := "patient-friendly",
    sections := [⟨"summary", ["Take aspirin", "Rest"], []⟩,
                 ⟨"Summary", ["rest", "Drink water"], []⟩,
                 ⟨" SUMMARY ", ["Take aspirin"], []⟩],
    risks := [], redactions_applied := false }

/-- Concrete input for C4's counterexample: a `Next Steps` section whose
bullet text is itself a canonical heading line. -/
def summaryC4bad : SummaryResponse :=
  { doc_id := none, style := "patient-friendly",
    sections := [⟨"Summary", ["x"], []⟩,
                 ⟨"Next Steps", ["**Summary:**"], []⟩],
    risks := [], redactions_applied := false }

/-- Concrete input for C4's witness: duplicate bullets in one section, an
empty section, no `Next Steps` section. -/
def summaryC4ok : SummaryResponse :=
  { doc_id := none, style := "patient-friendly",
    sections := [⟨"Summary", ["Take it easy", "take it easy ", "Hydrate"], []⟩,
                 ⟨"Findings", [], []⟩],
    risks := [], redactions_applied := false }

/-! ### Snippet Retriever — `retrieval.py`

`extract_snippets` tokenizes the query (`re.findall(r'\b\w+\b', query.lower())`,
i.e. the maximal runs of word characters), scans the text with a
case-insensitive alternation of the literal keywords (leftmost match,
earliest-listed alternative, non-overlapping), carves a window around each
match not within `window` characters of an already-selected match start,
trims to word boundaries, scores by keyword density, stops at
`max_snippets`, and finally sorts by descending score (Python's stable
sort).  The float `relevance_score` is modelled as `ℚ`. -/

/-- `DocumentSnippet` from `schemas_summary.py`. -/
structure DocumentSnippet where
  text : String
  citation : String
  relevance_score : ℚ
deriving DecidableEq

/-- Maximal runs of characters satisfying `p` (the accumulator holds the
current run, reversed). -/
def runsOf (p : Char → Bool) : List Char → List Char → List (List Char)
  | cur, [] => if cur = [] then [] else [cur.reverse]
  | cur, c :: rest =>
    if p c then runsOf p (c :: cur) rest
    else if cur = [] then runsOf p [] rest
    else cur.reverse :: runsOf p [] rest

/-- `re.findall(r'\b\w+\b', s)`: the maximal runs of word characters. -/
def findallWords (s : List Char) : List (List Char) := runsOf isWordChar [] s

/-- Python `s.split()` with no argument: maximal runs of non-whitespace. -/
def pySplitWS (s : List Char) : List (List Char) :=
  runsOf (fun c => !(isPySpace c)) [] s

/-- The first keyword (in pattern order) matching at the head of the
text — regex alternation preference. -/
def firstKeywordMatch (kws : List (List Char)) (tl : List Char) : Option (List Char) :=
  kws.find? (fun kw => kw.isPrefixOf tl)

/-- `pattern.finditer(full_text)` for an alternation of literal lowercase
keywords matched against the lowercased text: the non-overlapping
`(start, end)` spans, scanning left to right.  Each step consumes at least
one character (`\w+` tokens are nonempty; a zero-length alternative — which
cannot arise — is skipped), so fuel `|text|` suffices. -/
def finditerAux (kws : List (List Char)) : Nat → Nat → List Char → List (Nat × Nat)
  | 0, _, _ => []
  | _, _, [] => []
  | fuel + 1, pos, c :: rest =>
    match firstKeywordMatch kws (c :: rest) with
    | some kw =>
      if kw.length = 0 then finditerAux kws fuel (pos + 1) rest
      else (pos, pos + kw.length) ::
        finditerAux kws fuel (pos + kw.length) ((c :: rest).drop kw.length)
    | none => finditerAux kws fuel (pos + 1) rest

/-- All matches of the keyword alternation over a text. -/
def finditer (kws : List (List Char)) (tl : List Char) : List (Nat × Nat) :=
  finditerAux kws tl.length 0 tl

/-- Python `str.count(sub)` scan for nonempty `sub` as a structural
recursion: `skip` is the number of characters still to pass over after a
match (non-overlapping semantics). -/
def countScan (kw : List Char) : Nat → List Char → Nat
  | _, [] => 0
  | 0, c :: rest =>
    if kw.isPrefixOf (c :: rest) then 1 + countScan kw (kw.length - 1) rest
    else countScan kw 0 rest
  | skip + 1, _ :: rest => countScan kw skip rest

/-- Python `str.count(sub)`.  (`count("")` is `len + 1` in Python; the
empty pattern never arises from `\w+` tokens.) -/
def countOccs (kw s : List Char) : Nat :=
  if kw = [] then s.length + 1 else countScan kw 0 s

/-- The same non-overlapping count, phrased with `List.drop` (used only in
proofs; `countScan` is the executable form). -/
def countAux (kw : List Char) : List Char → Nat
  | [] => 0
  | c :: rest =>
    if kw.isPrefixOf (c :: rest) then 1 + countAux kw (rest.drop (kw.length - 1))
    else countAux kw rest
termination_by l => l.length
decreasing_by
  all_goals simp only [List.length_drop, List.length_cons]
  all_goals omega

/-- `relevance_score = keyword_count / len(keywords) if keywords else 0`:
the summed per-keyword occurrence counts in the lowercased snippet text,
divided by the keyword-list length (with multiplicity). -/
def keywordScore (kws : List (List Char)) (snippetLower : List Char) : ℚ :=
  if kws.length = 0 then 0
  else mkRat ((kws.map (fun kw => countOccs kw snippetLower)).sum : Int) kws.length

/-- The window text carved for a match span `[ms, me)`: clamp the window
(`max(0, ms - window)` to `min(len, me + window)`), trim a partial word at
the left edge (drop through the first space, Python `str.find`) when the
window was clipped on the left, trim a partial word at the right edge (cut
at the last space, Python `str.rfind`) when clipped on the right. -/
def snippetWindowRaw (text : List Char) (window ms me : Nat) : List Char :=
  let start := ms - window
  let e := min text.length (me + window)
  let snip0 := (text.drop start).take (e - start)
  let snip1 :=
    if 0 < start then
      match snip0.findIdx? (fun c => c == ' ') with
      | some i => if 0 < i then snip0.drop (i + 1) else snip0
      | none => snip0
    else snip0
  if e < text.length then
    match snip1.reverse.findIdx? (fun c => c == ' ') with
    | some j => if 0 < snip1.length - 1 - j then snip1.take (snip1.length - 1 - j) else snip1
    | none => snip1
  else snip1

/-- The snippet built for a match span: the stripped window text, the
citation from the clamped offsets, and the keyword-density score computed
on the trimmed (pre-strip) window text, lowercased. -/
def mkSnippet (text : List Char) (kws : List (List Char)) (window : Nat)
    (ms me : Nat) : DocumentSnippet :=
  { text := ⟨pyStrip (snippetWindowRaw text window ms me)⟩,
    citation := "L" ++ toString (ms - window) ++ "-" ++ toString (min text.length (me + window)),
    relevance_score := keywordScore kws (pyLower (snippetWindowRaw text window ms me)) }

/-- Distance of two naturals, Python `abs(a - b)` on ints. -/
def natDist (a b : Nat) : Nat := max a b - min a b

/-- The match loop of `extract_snippets`: skip matches within `window` of
an already-selected match start, build a snippet otherwise, and stop once
`max_snippets` snippets are collected. -/
def snippetLoop (text : List Char) (kws : List (List Char)) (maxSnippets window : Nat) :
    List (Nat × Nat) → List Nat → Nat → List DocumentSnippet
  | [], _, _ => []
  | (ms, me) :: rest, seen, count =>
    if seen.any (fun p => natDist ms p < window) then
      snippetLoop text kws maxSnippets window rest seen count
    else
      let snip := mkSnippet text kws window ms me
      if maxSnippets ≤ count + 1 then [snip]
      else snip :: snippetLoop text kws maxSnippets window rest (ms :: seen) (count + 1)

/-- `extract_snippets` before its final sort (the `results` list, in
document encounter order). -/
def extract_snippets_raw (full_text query : List Char) (maxSnippets window : Nat) :
    List DocumentSnippet :=
  let keywords := findallWords (pyLower query)
  if keywords = [] then []
  else snippetLoop full_text keywords maxSnippets window
    (finditer keywords (pyLower full_text)) [] 0

/-- The descending-score order of the final
`results.sort(key=..., reverse=True)`. -/
def snippetGE (a b : DocumentSnippet) : Prop :=
  b.relevance_score ≤ a.relevance_score

instance : DecidableRel snippetGE := fun a b =>
  inferInstanceAs (Decidable (b.relevance_score ≤ a.relevance_score))

/-- `retrieval.extract_snippets(full_text, query, max_snippets, window)`.
Python's `list.sort(key=..., reverse=True)` is a stable sort by descending
key; `List.insertionSort` is the stable sort with that order (any two
stable sorts of the same list under the same total preorder agree). -/
def extract_snippets (full_text query : List Char) (maxSnippets window : Nat) :
    List DocumentSnippet :=
  (extract_snippets_raw full_text query maxSnippets window).insertionSort snippetGE

/-- A document record as consumed by `extract_snippets_by_document`
(`{'id': ..., 'full_content': ...}`). -/
structure DocumentRec where
  id : String
  full_content : List Char

/-- The key of `_uniq_keep_order_snippets`:
`" ".join((s.text or "").lower().split())` — whitespace-collapsed,
case-folded snippet text. -/
def normSnippetKey (t : String) : String :=
  ⟨List.intercalate [' '] (pySplitWS (pyLower t.toList))⟩

/-- Loop of `_uniq_keep_order_snippets`. -/
def uniqSnippetsAux (seen : List String) : List DocumentSnippet → List DocumentSnippet
  | [] => []
  | s :: rest =>
    if normSnippetKey s.text ∈ seen then uniqSnippetsAux seen rest
    else s :: uniqSnippetsAux (normSnippetKey s.text :: seen) rest

/-- `retrieval._uniq_keep_order_snippets`. -/
def _uniq_keep_order_snippets (snippets : List DocumentSnippet) : List DocumentSnippet :=
  uniqSnippetsAux [] snippets

/-- `retrieval.extract_snippets_by_document(documents, query,
max_snippets_per_doc)`: per document with nonempty content, retrieve with
the default window 450, tag citations with the document id, merge, sort by
descending score, deduplicate by normalized text, cap at 5. -/
def extract_snippets_by_document (documents : List DocumentRec) (query : List Char)
    (maxPerDoc : Nat) : List DocumentSnippet :=
  let all := documents.flatMap (fun doc =>
    if doc.full_content = [] then []
    else (extract_snippets doc.full_content query maxPerDoc 450).map
      (fun s => { s with citation := "doc:" ++ doc.id ++ " " ++ s.citation }))
  (_uniq_keep_order_snippets (all.insertionSort snippetGE)).take 5

/-- Modelled from the spec's words, for comparison with the code's score:
the claimed relevance score — the count of (distinct) query-token
occurrences inside the snippet divided by the number of distinct query
tokens. -/
def specRelevanceScore (query snippetText : List Char) : ℚ :=
  let toks := (findallWords (pyLower query)).dedup
  if toks.length = 0 then 0
  else mkRat ((toks.map (fun kw => countOccs kw (pyLower snippetText))).sum : Int) toks.length

/-! ### PHI Redactor — `textops.deidentify_phi`

The eight regex patterns are embedded in a small pattern language whose
matcher implements Python `re` semantics for this fragment: literals,
character classes with greedy quantifiers (with backtracking), literal
alternation tried in written order, and the zero-width word boundary `\b`.
`re.sub` replaces the leftmost non-overlapping matches; `re.search` tests
every start position.  The matcher is fueled for structural recursion:
every call either consumes a text character or strictly shrinks the
pattern-weight measure, so `patsWeight + |text| + 1` fuel is never
exhausted. -/

/-- A regex fragment: literal text, one character of a class, a greedy
`class*`, an optional `class?`, the word boundary `\b`, or an alternation
of literals (tried in order). -/
inductive Pat where
  | lit (s : List Char)
  | one (p : Char → Bool)
  | many0 (p : Char → Bool)
  | opt (p : Char → Bool)
  | wb
  | alts (ss : List (List Char))

/-- `class{n}`. -/
def repP (n : Nat) (p : Char → Bool) : List Pat := List.replicate n (.one p)

/-- `class+` (one, then greedy star). -/
def many1P (p : Char → Bool) : List Pat := [.one p, .many0 p]

/-- `class{n,}` (n, then greedy star). -/
def atLeastP (n : Nat) (p : Char → Bool) : List Pat :=
  List.replicate n (.one p) ++ [.many0 p]

/-- Whether an optional character is a word character (end of text and
start of text count as non-word). -/
def isWordO : Option Char → Bool
  | some c => isWordChar c
  | none => false

/-- The `\b` test between the previous character and the current
position. -/
def wbHolds (prev : Option Char) (text : List Char) : Bool :=
  isWordO prev != isWordO text.head?

/-- Recursion-depth bound of the matcher. -/
def patWeight : Pat → Nat
  | .alts ss => ss.length + 2
  | _ => 1

/-- Total weight of a pattern list. -/
def patsWeight (ps : List Pat) : Nat := (ps.map patWeight).sum

/-- The backtracking matcher: match the pattern list at the head of
`text`, threading the previous character for `\b`; on success return the
remaining text.  Greedy quantifiers try the longer match first and
backtrack; alternations try alternatives in order. -/
def matchGo : Nat → List Pat → Option Char → List Char → Option (List Char)
  | 0, _, _, _ => none
  | _ + 1, [], _, text => some text
  | fuel + 1, p :: ps, prev, text =>
    match p with
    | .lit s =>
      if s.isPrefixOf text then
        matchGo fuel ps (if s.isEmpty then prev else s.getLast?) (text.drop s.length)
      else none
    | .one q =>
      match text with
      | [] => none
      | c :: rest => if q c then matchGo fuel ps (some c) rest else none
    | .many0 q =>
      match text with
      | c :: rest =>
        if q c then
          match matchGo fuel (.many0 q :: ps) (some c) rest with
          | some r => some r
          | none => matchGo fuel ps prev text
        else matchGo fuel ps prev text
      | [] => matchGo fuel ps prev text
    | .opt q =>
      match text with
      | c :: rest =>
        if q c then
          match matchGo fuel ps (some c) rest with
          | some r => some r
          | none => matchGo fuel ps prev text
        else matchGo fuel ps prev text
      | [] => matchGo fuel ps prev text
    | .wb => if wbHolds prev text then matchGo fuel ps prev text else none
    | .alts ss =>
      match ss with
      | [] => none
      | s :: ss' =>
        match matchGo fuel (.lit s :: ps) prev text with
        | some r => some r
        | none => matchGo fuel (.alts ss' :: ps) prev text

/-- Match a pattern list at the current position with sufficient fuel. -/
def matchPats (ps : List Pat) (prev : Option Char) (text : List Char) :
    Option (List Char) :=
  matchGo (patsWeight ps + text.length + 1) ps prev text

/-- The last character consumed by a match (for `\b` context after a
replacement), falling back to the previous context character. -/
def prevAfterMatch (orig remaining : List Char) (prev : Option Char) : Option Char :=
  match (orig.take (orig.length - remaining.length)).getLast? with
  | some c => some c
  | none => prev

/-- `re.sub` scan: replace each leftmost non-overlapping match by the
replacement, continuing after the matched span (in the original text, so
the `\b` context is the last matched character).  A zero-length match —
impossible for these patterns, which all consume — is treated as no match.
Fuel `|text| + 1` suffices: every step consumes at least one character. -/
def subAllGo (pat : List Pat) (repl : List Char) :
    Nat → Option Char → List Char → List Char
  | 0, _, text => text
  | _ + 1, _, [] => []
  | fuel + 1, prev, c :: rest =>
    match matchPats pat prev (c :: rest) with
    | some remaining =>
      if remaining.length < (c :: rest).length then
        repl ++ subAllGo pat repl fuel (prevAfterMatch (c :: rest) remaining prev) remaining
      else c :: subAllGo pat repl fuel (some c) rest
    | none => c :: subAllGo pat repl fuel (some c) rest

/-- `re.sub(pattern, repl, text)` for this fragment. -/
def subAll (pat : List Pat) (repl : List Char) (text : List Char) : List Char :=
  subAllGo pat repl (text.length + 1) none text

/-- `re.search` scan: try a match at every position (including the end). -/
def hasMatchGo (pat : List Pat) : Option Char → List Char → Bool
  | prev, [] => (matchPats pat prev []).isSome
  | prev, c :: rest => (matchPats pat prev (c :: rest)).isSome || hasMatchGo pat (some c) rest

/-- `re.search(pattern, text)` as a Boolean. -/
def hasMatch (pat : List Pat) (text : List Char) : Bool := hasMatchGo pat none text

/-- `[A-Z]`. -/
def isUpperAZ (c : Char) : Bool := decide ('A' ≤ c) && decide (c ≤ 'Z')

/-- `[a-z]`. -/
def isLowerAZ (c : Char) : Bool := decide ('a' ≤ c) && decide (c ≤ 'z')

/-- `[A-Za-z0-9._%+-]`, the email local part. -/
def isEmailLocalChar (c : Char) : Bool :=
  c.isAlpha || c.isDigit || c = '.' || c = '_' || c = '%' || c = '+' || c = '-'

/-- `[A-Za-z0-9.-]`, the email domain part. -/
def isEmailDomainChar (c : Char) : Bool :=
  c.isAlpha || c.isDigit || c = '.' || c = '-'

/-- `[A-Z|a-z]` — as written in the source, this class also contains the
pipe character. -/
def isTldChar (c : Char) : Bool := isUpperAZ c || isLowerAZ c || c = '|'

/-- `[A-Za-z\s]`. -/
def isLetterOrWs (c : Char) : Bool := c.isAlpha || isPySpace c

/-- `\b[A-Z][a-z]+ [A-Z][a-z]+\b` — naive full names. -/
def namePat : List Pat :=
  [.wb, .one isUpperAZ] ++ many1P isLowerAZ ++ [.lit [' '], .one isUpperAZ] ++
    many1P isLowerAZ ++ [.wb]

/-- `\b\d{3}-\d{3}-\d{4}\b` — dashed phone numbers. -/
def phoneDashPat : List Pat :=
  [.wb] ++ repP 3 Char.isDigit ++ [.lit ['-']] ++ repP 3 Char.isDigit ++
    [.lit ['-']] ++ repP 4 Char.isDigit ++ [.wb]

/-- `\(\d{3}\)\s*\d{3}-\d{4}` — parenthesized phone numbers. -/
def phoneParenPat : List Pat :=
  [.lit ['(']] ++ repP 3 Char.isDigit ++ [.lit [')'], .many0 isPySpace] ++
    repP 3 Char.isDigit ++ [.lit ['-']] ++ repP 4 Char.isDigit

/-- `\b\d{3}-\d{2}-\d{4}\b` — SSNs. -/
def ssnPat : List Pat :=
  [.wb] ++ repP 3 Char.isDigit ++ [.lit ['-']] ++ repP 2 Char.isDigit ++
    [.lit ['-']] ++ repP 4 Char.isDigit ++ [.wb]

/-- `\b[A-Za-z0-9._%+-]+@[A-Za-z0-9.-]+\.[A-Z|a-z]{2,}\b` — emails. -/
def emailPat : List Pat :=
  [.wb] ++ many1P isEmailLocalChar ++ [.lit ['@']] ++ many1P isEmailDomainChar ++
    [.lit ['.']] ++ atLeastP 2 isTldChar ++ [.wb]

/-- `\b\d+\s+[A-Za-z\s]+(?:Street|St|Avenue|Ave|Road|Rd|Drive|Dr|Lane|Ln|Boulevard|Blvd)\b`
— street addresses. -/
def addressPat : List Pat :=
  [.wb] ++ many1P Char.isDigit ++ many1P isPySpace ++ many1P isLetterOrWs ++
    [.alts [String.toList "Street", String.toList "St", String.toList "Avenue",
      String.toList "Ave", String.toList "Road", String.toList "Rd",
      String.toList "Drive", String.toList "Dr", String.toList "Lane",
      String.toList "Ln", String.toList "Boulevard", String.toList "Blvd"], .wb]

/-- `\bMRN:?\s*\d+\b` — MRN-labelled tokens. -/
def mrnPat : List Pat :=
  [.wb, .lit (String.toList "MRN"), .opt (fun c => c == ':'), .many0 isPySpace] ++
    many1P Char.isDigit ++ [.wb]

/-- `\bPatient ID:?\s*\d+\b` — Patient-ID-labelled tokens. -/
def patientIdPat : List Pat :=
  [.wb, .lit (String.toList "Patient ID"), .opt (fun c => c == ':'),
    .many0 isPySpace] ++ many1P Char.isDigit ++ [.wb]

/-- The ordered pattern/sentinel list of `deidentify_phi`. -/
def phiPatterns : List (List Pat × List Char) :=
  [(namePat, String.toList "[REDACTED_NAME]"),
   (phoneDashPat, String.toList "[REDACTED_PHONE]"),
   (phoneParenPat, String.toList "[REDACTED_PHONE]"),
   (ssnPat, String.toList "[REDACTED_SSN]"),
   (emailPat, String.toList "[REDACTED_EMAIL]"),
   (addressPat, String.toList "[REDACTED_ADDRESS]"),
   (mrnPat, String.toList "[REDACTED_MRN]"),
   (patientIdPat, String.toList "[REDACTED_PATIENT_ID]")]

/-- One pattern stage of `deidentify_phi`: `if re.search(...): flag = True;
text = re.sub(...)`. -/
def phiStep (acc : List Char × Bool) (pr : List Pat × List Char) : List Char × Bool :=
  if hasMatch pr.1 acc.1 then (subAll pr.1 pr.2 acc.1, true) else acc

/-- `textops.deidentify_phi(text) -> (deidentified_text,
redactions_applied)`. -/
def deidentify_phi (text : List Char) : List Char × Bool :=
  phiPatterns.foldl phiStep (text, false)

/-- The text entering stage `i` of `deidentify_phi`. -/
def phiStageText (i : Nat) (t : List Char) : List Char :=
  ((phiPatterns.take i).foldl phiStep (t, false)).1

/-! ### Theorems -/

theorem chunkLoop_eq_map_spans (text : List Char) (mc ov : Nat) :
    ∀ fuel start idx,
      chunkLoop text mc ov fuel start idx =
        (chunkSpansLoop text.length mc ov fuel start idx).map
          (fun t => (t.1, (text.drop t.2.1).take (t.2.2 - t.2.1))) := by
  intro fuel
  induction fuel with
  | zero => intro start idx; rfl
  | succ fuel ih =>
    intro start idx
    simp only [chunkLoop, chunkSpansLoop]
    by_cases h : start < text.length
    · simp only [h, if_true]
      by_cases he : min (start + mc) text.length = text.length
      · simp [he]
      · simp [he, ih]
    · simp [h]

theorem chunkSpansLoop_spec (n mc ov : Nat) (hov : ov < mc) :
    ∀ fuel start idx, start < n → n - start ≤ fuel →
      (chunkSpansLoop n mc ov fuel start idx).head? =
          some (idx, start, min (start + mc) n)
      ∧ (∀ t ∈ chunkSpansLoop n mc ov fuel start idx,
          t.2.1 ≤ t.2.2 ∧ t.2.2 ≤ n ∧ t.2.2 - t.2.1 ≤ mc)
      ∧ (∀ k, start ≤ k → k < n →
          ∃ t ∈ chunkSpansLoop n mc ov fuel start idx, t.2.1 ≤ k ∧ k < t.2.2)
      ∧ (chunkSpansLoop n mc ov fuel start idx).Chain' (fun a b => b.2.1 = a.2.2 - ov) := by
  intro fuel
  induction fuel with
  | zero => intro start idx h1 h2; omega
  | succ fuel ih =>
    intro start idx hs hf
    simp only [chunkSpansLoop, hs, if_true]
    by_cases he : min (start + mc) n = n
    · simp only [he, if_true]
      refine ⟨by simp [he], ?_, ?_, ?_⟩
      · intro t ht
        simp only [List.mem_singleton] at ht
        subst ht
        refine ⟨by dsimp only; omega, le_rfl, by dsimp only; omega⟩
      · intro k hk1 hk2
        exact ⟨(idx, start, n), List.mem_singleton.mpr rfl, hk1, hk2⟩
      · simp
    · simp only [he, if_false]
      have hmin : min (start + mc) n = start + mc ∧ start + mc < n := by omega
      have hs' : start + mc - ov < n := by omega
      have hf' : n - (start + mc - ov) ≤ fuel := by omega
      obtain ⟨ihHead, ihBounds, ihCov, ihChain⟩ := ih (start + mc - ov) (idx + 1) hs' hf'
      rw [hmin.1]
      refine ⟨by simp, ?_, ?_, ?_⟩
      · intro t ht
        rcases List.mem_cons.mp ht with h | h
        · subst h
          refine ⟨by dsimp only; omega, by dsimp only; omega, by dsimp only; omega⟩
        · exact ihBounds t h
      · intro k hk1 hk2
        by_cases hke : k < start + mc
        · exact ⟨(idx, start, start + mc), List.mem_cons_self _ _, hk1, hke⟩
        · obtain ⟨t, htmem, ht1, ht2⟩ := ihCov k (by omega) hk2
          exact ⟨t, List.mem_cons_of_mem _ htmem, ht1, ht2⟩
      · rw [List.chain'_cons']
        refine ⟨?_, ihChain⟩
        intro y hy
        rw [ihHead, Option.mem_some_iff] at hy
        subst hy
        rfl

/-- Claim C5 (amended with the nonemptiness hypothesis): for nonempty text
with `len(text) ≤ max_chars` and valid `(max_chars, overlap)`,
`chunk_text_with_overlap` returns exactly one chunk whose text is the whole
input text. -/
theorem claim_C5_segmenter_single_chunk (text : List Char) (mc ov : Nat)
    (hlen : 0 < text.length) (hle : text.length ≤ mc) (hov : ov < mc) :
    chunk_text_with_overlap text mc ov = [(0, text)] := by
  have hmin : min (0 + mc) text.length = text.length := by omega
  simp only [chunk_text_with_overlap, chunkLoop, hlen, if_true, hmin]
  simp

/-- Witness for C5's amended theorem at a concrete input. -/
theorem claim_C5_segmenter_single_chunk_witness :
    chunk_text_with_overlap (String.toList "ab") 5 1 = [(0, String.toList "ab")] :=
  claim_C5_segmenter_single_chunk (String.toList "ab") 5 1 (by decide) (by decide)
    (by decide)

/-- Counterexample to claim C5 as stated: the empty text satisfies
`len(text) ≤ max_chars` for the valid pair `(1, 0)`, yet
`chunk_text_with_overlap` returns zero chunks, not one chunk covering the
whole text. -/
theorem claim_C5_counterexample :
    ([] : List Char).length ≤ 1 ∧ (0 : Nat) < 1
    ∧ chunk_text_with_overlap ([] : List Char) 1 0 = []
    ∧ chunk_text_with_overlap ([] : List Char) 1 0 ≠ [(0, ([] : List Char))] := by
  decide

/-- Claim C6: for valid `(max_chars, overlap)`, the chunks returned by
`chunk_text_with_overlap` are exactly the slices of the spans in
`chunkSpans`; every span is at most `max_chars` wide (hence every chunk's
text has length at most `max_chars`), the spans cover `[0, len(text))` with
no gaps, and each successive span starts at the previous span's end minus
`overlap`. -/
theorem claim_C6_segmenter_coverage (text : List Char) (mc ov : Nat) (hov : ov < mc) :
    chunk_text_with_overlap text mc ov =
        (chunkSpans text mc ov).map
          (fun t => (t.1, (text.drop t.2.1).take (t.2.2 - t.2.1)))
    ∧ (∀ t ∈ chunkSpans text mc ov, t.2.2 - t.2.1 ≤ mc)
    ∧ (∀ c ∈ chunk_text_with_overlap text mc ov, c.2.length ≤ mc)
    ∧ (∀ k, k < text.length → ∃ t ∈ chunkSpans text mc ov, t.2.1 ≤ k ∧ k < t.2.2)
    ∧ (chunkSpans text mc ov).Chain' (fun a b => b.2.1 = a.2.2 - ov) := by
  have hmap : chunk_text_with_overlap text mc ov =
      (chunkSpans text mc ov).map
        (fun t => (t.1, (text.drop t.2.1).take (t.2.2 - t.2.1))) :=
    chunkLoop_eq_map_spans text mc ov (text.length + 1) 0 0
  by_cases h0 : 0 < text.length
  · obtain ⟨_, hBounds, hCov, hChain⟩ :=
      chunkSpansLoop_spec text.length mc ov hov (text.length + 1) 0 0 h0 (by omega)
    refine ⟨hmap, fun t ht => (hBounds t ht).2.2, ?_,
      fun k hk => hCov k (Nat.zero_le k) hk, hChain⟩
    intro c hc
    rw [hmap] at hc
    obtain ⟨t, htmem, rfl⟩ := List.mem_map.mp hc
    simp only [List.length_take, List.length_drop]
    have := hBounds t htmem
    omega
  · have hlen : text.length = 0 := by omega
    have hnil : chunkSpans text mc ov = [] := by
      simp [chunkSpans, chunkSpansLoop, hlen]
    refine ⟨hmap, by simp [hnil], ?_, by omega, by simp [hnil]⟩
    rw [hmap, hnil]
    simp

/-- Witness for C6's theorem at a concrete input. -/
theorem claim_C6_segmenter_coverage_witness :
    chunk_text_with_overlap (String.toList "abcdefgh") 3 1 =
        (chunkSpans (String.toList "abcdefgh") 3 1).map
          (fun t => (t.1, ((String.toList "abcdefgh").drop t.2.1).take (t.2.2 - t.2.1)))
    ∧ (∀ t ∈ chunkSpans (String.toList "abcdefgh") 3 1, t.2.2 - t.2.1 ≤ 3)
    ∧ (∀ c ∈ chunk_text_with_overlap (String.toList "abcdefgh") 3 1, c.2.length ≤ 3)
    ∧ (∀ k, k < (String.toList "abcdefgh").length →
        ∃ t ∈ chunkSpans (String.toList "abcdefgh") 3 1, t.2.1 ≤ k ∧ k < t.2.2)
    ∧ (chunkSpans (String.toList "abcdefgh") 3 1).Chain'
        (fun a b => b.2.1 = a.2.2 - 1) :=
  claim_C6_segmenter_coverage (String.toList "abcdefgh") 3 1 (by decide)

theorem runJsonLoop_all_garbage (parse : String → Option Json)
    (gateway : Nat → Except GatewayError String) (resp : Nat → String)
    (maxRetries : Nat)
    (hok : ∀ i < maxRetries, gateway i = .ok (resp i))
    (hbad : ∀ i < maxRetries, tryParseResponse parse (resp i) = none) :
    ∀ fuel attempt, attempt + fuel = maxRetries → 0 < fuel →
      runJsonLoop parse gateway maxRetries fuel attempt =
        (.ok (jsonFallbackParse (resp (maxRetries - 1))), maxRetries) := by
  intro fuel
  induction fuel with
  | zero => intro attempt _ h; omega
  | succ fuel ih =>
    intro attempt htot _
    have hlt : attempt < maxRetries := by omega
    rw [runJsonLoop, hok attempt hlt]
    dsimp only
    rw [hbad attempt hlt]
    dsimp only
    by_cases hlast : attempt < maxRetries - 1
    · rw [if_pos hlast]
      exact ih (attempt + 1) (by omega) (by omega)
    · rw [if_neg hlast]
      have h1 : attempt = maxRetries - 1 := by omega
      have h2 : maxRetries - 1 + 1 = maxRetries := by omega
      rw [h1, h2]

/-- Claim C1: if every gateway call of the sequence returns a response that
neither parses as JSON nor yields a parseable extracted block, then
`_run_json_prompt` returns (never raises) the fixed fallback object — one
`"Summary"` section whose bullet is the first 200 characters of the last
raw response, and empty risks — after exactly `max_retries` gateway
calls. -/
theorem claim_C1_json_repair_fallback (parse : String → Option Json)
    (gateway : Nat → Except GatewayError String) (resp : Nat → String)
    (maxRetries : Nat) (hpos : 0 < maxRetries)
    (hok : ∀ i < maxRetries, gateway i = .ok (resp i))
    (hbad : ∀ i < maxRetries, tryParseResponse parse (resp i) = none) :
    _run_json_prompt parse gateway maxRetries =
      (.ok (jsonFallbackParse (resp (maxRetries - 1))), maxRetries) :=
  runJsonLoop_all_garbage parse gateway resp maxRetries hok hbad maxRetries 0
    (by omega) hpos

/-- Witness for C1 at a concrete garbage-returning gateway with the default
`max_retries = 3`. -/
theorem claim_C1_json_repair_fallback_witness :
    _run_json_prompt (fun _ => none) (fun _ => .ok "not json") 3 =
      (.ok (jsonFallbackParse "not json"), 3) :=
  claim_C1_json_repair_fallback (fun _ => none) (fun _ => .ok "not json")
    (fun _ => "not json") 3 (by decide) (fun _ _ => rfl) (fun _ _ => rfl)

theorem runJsonLoop_never_raises (parse : String → Option Json)
    (gateway : Nat → Except GatewayError String) (maxRetries : Nat) :
    ∀ fuel attempt, attempt + fuel = maxRetries → 0 < fuel →
      ∃ j calls, runJsonLoop parse gateway maxRetries fuel attempt = (.ok j, calls) := by
  intro fuel
  induction fuel with
  | zero => intro attempt _ h; omega
  | succ fuel ih =>
    intro attempt htot _
    rw [runJsonLoop]
    match hg : gateway attempt with
    | .error e =>
      dsimp only
      by_cases hlast : attempt = maxRetries - 1
      · rw [if_pos hlast]
        exact ⟨jsonFallbackError, attempt + 1, rfl⟩
      · rw [if_neg hlast]
        exact ih (attempt + 1) (by omega) (by omega)
    | .ok response =>
      dsimp only
      match tryParseResponse parse response with
      | some j => exact ⟨j, attempt + 1, rfl⟩
      | none =>
        dsimp only
        by_cases hlast : attempt < maxRetries - 1
        · rw [if_pos hlast]
          exact ih (attempt + 1) (by omega) (by omega)
        · rw [if_neg hlast]
          exact ⟨jsonFallbackParse response, attempt + 1, rfl⟩

theorem runJsonLoop_all_errors (parse : String → Option Json)
    (gateway : Nat → Except GatewayError String) (maxRetries : Nat)
    (herr : ∀ i < maxRetries, ∃ e, gateway i = .error e) :
    ∀ fuel attempt, attempt + fuel = maxRetries → 0 < fuel →
      runJsonLoop parse gateway maxRetries fuel attempt =
        (.ok jsonFallbackError, maxRetries) := by
  intro fuel
  induction fuel with
  | zero => intro attempt _ h; omega
  | succ fuel ih =>
    intro attempt htot _
    have hlt : attempt < maxRetries := by omega
    obtain ⟨e, he⟩ := herr attempt hlt
    rw [runJsonLoop, he]
    dsimp only
    by_cases hlast : attempt = maxRetries - 1
    · rw [if_pos hlast]
      have h2 : maxRetries - 1 + 1 = maxRetries := by omega
      rw [hlast, h2]
    · rw [if_neg hlast]
      exact ih (attempt + 1) (by omega) (by omega)

/-- Claim C2 (amended): for `max_retries ≥ 1`, gateway failures —
transport, timeout, or upstream-HTTP — never propagate out of
`_run_json_prompt`, not even on the first attempt: every attempt's failure
is caught and treated as a failed attempt, the loop always returns
normally, and when every attempt fails it returns the safe
`"Unable to process document"` fallback after `max_retries` gateway calls
rather than raising. -/
theorem claim_C2_failures_never_propagate (parse : String → Option Json)
    (gateway : Nat → Except GatewayError String) (maxRetries : Nat)
    (hpos : 0 < maxRetries) :
    (∃ j calls, _run_json_prompt parse gateway maxRetries = (.ok j, calls))
    ∧ ((∀ i < maxRetries, ∃ e, gateway i = .error e) →
        _run_json_prompt parse gateway maxRetries = (.ok jsonFallbackError, maxRetries)) :=
  ⟨runJsonLoop_never_raises parse gateway maxRetries maxRetries 0 (by omega) hpos,
   fun herr => runJsonLoop_all_errors parse gateway maxRetries herr maxRetries 0
     (by omega) hpos⟩

/-- Counterexample to claim C2 as stated: with `max_retries = 3` and the
gateway failing with a transport error on the first attempt, the failure
does not propagate out of `_run_json_prompt`; the loop continues and
returns the JSON parsed on the second call. -/
theorem claim_C2_counterexample :
    gatewayFailsFirst 0 = .error .connection
    ∧ _run_json_prompt parseOnlyEmptyObj gatewayFailsFirst 3 = (.ok (Json.obj []), 2) :=
  ⟨rfl, rfl⟩

/-- Witness for C2's amended theorem: a gateway that times out on every
attempt, with `max_retries = 3`, yields the error fallback after 3 calls. -/
theorem claim_C2_failures_never_propagate_witness :
    _run_json_prompt (fun _ => none) (fun _ => .error .timeout) 3 =
      (.ok jsonFallbackError, 3) :=
  (claim_C2_failures_never_propagate (fun _ => none) (fun _ => .error .timeout) 3
    (by decide)).2 (fun _ _ => ⟨.timeout, rfl⟩)

theorem charToNat_ofNat (n : Nat) (h : Nat.isValidChar n) : (Char.ofNat n).toNat = n := by
  unfold Char.ofNat
  rw [dif_pos h]
  unfold Char.ofNatAux Char.toNat
  simp only [UInt32.toNat]
  exact BitVec.toNat_ofNatLt _ _

theorem char_eq_iff_toNat {a b : Char} : a = b ↔ a.toNat = b.toNat := by
  constructor
  · intro h; rw [h]
  · intro h
    have ha := Char.ofNat_toNat a
    rw [← ha, h, Char.ofNat_toNat]

theorem uint32_le_iff_toNat {a b : UInt32} : a ≤ b ↔ a.toNat ≤ b.toNat := by
  rw [UInt32.le_def, BitVec.le_def]
  rfl

theorem isAlpha_eq_decide (c : Char) :
    c.isAlpha =
      decide ((65 ≤ c.toNat ∧ c.toNat ≤ 90) ∨ (97 ≤ c.toNat ∧ c.toNat ≤ 122)) := by
  rw [Bool.eq_iff_iff]
  unfold Char.isAlpha Char.isUpper Char.isLower
  simp only [Bool.or_eq_true, Bool.and_eq_true, decide_eq_true_iff, ge_iff_le,
    uint32_le_iff_toNat]
  exact Iff.rfl

theorem isPySpace_eq_decide (c : Char) :
    isPySpace c =
      decide (c.toNat = 32 ∨ c.toNat = 9 ∨ c.toNat = 10 ∨ c.toNat = 13 ∨
        c.toNat = 11 ∨ c.toNat = 12) := by
  rw [Bool.eq_iff_iff]
  unfold isPySpace
  simp only [Bool.or_eq_true, decide_eq_true_iff, char_eq_iff_toNat]
  have h1 : (' ').toNat = 32 := rfl
  have h2 : ('\t').toNat = 9 := rfl
  have h3 : ('\n').toNat = 10 := rfl
  have h4 : ('\r').toNat = 13 := rfl
  have h5 : ('\x0b').toNat = 11 := rfl
  have h6 : ('\x0c').toNat = 12 := rfl
  rw [h1, h2, h3, h4, h5, h6]
  tauto

theorem toNat_toLower (c : Char) :
    (Char.toLower c).toNat =
      if 65 ≤ c.toNat ∧ c.toNat ≤ 90 then c.toNat + 32 else c.toNat := by
  unfold Char.toLower
  by_cases h : c.toNat ≥ 65 ∧ c.toNat ≤ 90
  · rw [if_pos h, if_pos ⟨h.1, h.2⟩]
    exact charToNat_ofNat _ (Or.inl (by omega))
  · rw [if_neg h, if_neg h]

theorem toNat_toUpper (c : Char) :
    (Char.toUpper c).toNat =
      if 97 ≤ c.toNat ∧ c.toNat ≤ 122 then c.toNat - 32 else c.toNat := by
  unfold Char.toUpper
  by_cases h : c.toNat ≥ 97 ∧ c.toNat ≤ 122
  · rw [if_pos h, if_pos ⟨h.1, h.2⟩]
    exact charToNat_ofNat _ (Or.inl (by omega))
  · rw [if_neg h, if_neg h]

theorem isAlpha_toLower (c : Char) : (Char.toLower c).isAlpha = c.isAlpha := by
  simp only [isAlpha_eq_decide, toNat_toLower]
  apply decide_eq_decide.mpr
  split_ifs with h <;> omega

theorem isAlpha_toUpper (c : Char) : (Char.toUpper c).isAlpha = c.isAlpha := by
  simp only [isAlpha_eq_decide, toNat_toUpper]
  apply decide_eq_decide.mpr
  split_ifs with h <;> omega

theorem isPySpace_toLower (c : Char) : isPySpace (Char.toLower c) = isPySpace c := by
  simp only [isPySpace_eq_decide, toNat_toLower]
  apply decide_eq_decide.mpr
  split_ifs with h <;> omega

theorem isPySpace_toUpper (c : Char) : isPySpace (Char.toUpper c) = isPySpace c := by
  simp only [isPySpace_eq_decide, toNat_toUpper]
  apply decide_eq_decide.mpr
  split_ifs with h <;> omega

theorem toLower_toLower (c : Char) : Char.toLower (Char.toLower c) = Char.toLower c := by
  rw [char_eq_iff_toNat]
  simp only [toNat_toLower]
  split_ifs with h1 h2 <;> omega

theorem toUpper_toUpper (c : Char) : Char.toUpper (Char.toUpper c) = Char.toUpper c := by
  rw [char_eq_iff_toNat]
  simp only [toNat_toUpper]
  split_ifs with h1 h2 <;> omega

theorem dropWhile_cons_eq_self_iff {p : Char → Bool} {c : Char} {l : List Char} :
    List.dropWhile p (c :: l) = c :: l ↔ p c = false := by
  constructor
  · intro h
    by_contra hc
    rw [Bool.not_eq_false] at hc
    rw [List.dropWhile_cons, if_pos hc] at h
    have h1 := (List.dropWhile_suffix (l := l) p).length_le
    have h2 := congrArg List.length h
    simp at h2
    omega
  · intro h
    rw [List.dropWhile_cons, if_neg (by simp [h])]

theorem dropWhile_eq_self_of_prefix_dropWhile {p : Char → Bool} {x l : List Char}
    (h : x <+: List.dropWhile p l) : List.dropWhile p x = x := by
  match x with
  | [] => rfl
  | c :: cx =>
    obtain ⟨t, ht⟩ := h
    have hm := List.head?_dropWhile_not p l
    rw [← ht] at hm
    simp at hm
    rw [dropWhile_cons_eq_self_iff]
    exact hm

theorem rdropWhile_eq_self_iff_rev {p : Char → Bool} {v : List Char} :
    List.rdropWhile p v = v ↔ List.dropWhile p v.reverse = v.reverse := by
  unfold List.rdropWhile
  rw [List.reverse_eq_iff]

theorem pyStrip_eq_self_iff {v : List Char} :
    pyStrip v = v ↔
      (List.dropWhile isPySpace v = v ∧ List.rdropWhile isPySpace v = v) := by
  constructor
  · intro h
    have hdw : List.dropWhile isPySpace v = v := by
      match v with
      | [] => rfl
      | c :: cv =>
        rw [dropWhile_cons_eq_self_iff]
        by_contra hc
        rw [Bool.not_eq_false] at hc
        unfold pyStrip at h
        rw [List.dropWhile_cons, if_pos hc] at h
        have h1 : (List.rdropWhile isPySpace (List.dropWhile isPySpace cv)).length ≤
            (List.dropWhile isPySpace cv).length :=
          (List.rdropWhile_prefix _ _).length_le
        have h2 := (List.dropWhile_suffix (l := cv) isPySpace).length_le
        have h3 := congrArg List.length h
        simp at h3
        omega
    refine ⟨hdw, ?_⟩
    unfold pyStrip at h
    rw [hdw] at h
    exact h
  · intro ⟨h1, h2⟩
    unfold pyStrip
    rw [h1, h2]

theorem pyStrip_pyStrip (l : List Char) : pyStrip (pyStrip l) = pyStrip l := by
  rw [pyStrip_eq_self_iff]
  constructor
  · exact dropWhile_eq_self_of_prefix_dropWhile (List.rdropWhile_prefix _ _)
  · unfold pyStrip
    exact List.rdropWhile_idempotent _ _

theorem pyStrip_eq_self_of_statuses {v u : List Char}
    (h : v.map isPySpace = u.map isPySpace) (hu : pyStrip u = u) : pyStrip v = v := by
  rw [pyStrip_eq_self_iff]
  rw [pyStrip_eq_self_iff] at hu
  constructor
  · match v, u, h with
    | [], [], _ => rfl
    | c :: cv, d :: du, h =>
      simp only [List.map_cons, List.cons.injEq] at h
      rw [dropWhile_cons_eq_self_iff, h.1]
      rw [← dropWhile_cons_eq_self_iff (l := du)]
      exact hu.1
  · rw [rdropWhile_eq_self_iff_rev]
    have hrev : v.reverse.map isPySpace = u.reverse.map isPySpace := by
      rw [List.map_reverse, List.map_reverse, h]
    have hu2 : List.dropWhile isPySpace u.reverse = u.reverse := by
      rw [← rdropWhile_eq_self_iff_rev]
      exact hu.2
    match hv : v.reverse, hu3 : u.reverse, hrev, hu2 with
    | [], [], _, _ => rfl
    | c :: cv, d :: du, hrev, hu2 =>
      simp only [List.map_cons, List.cons.injEq] at hrev
      rw [dropWhile_cons_eq_self_iff, hrev.1, ← dropWhile_cons_eq_self_iff (l := du)]
      exact hu2

theorem isAlpha_pyTitleChar (b : Bool) (c : Char) :
    (pyTitleChar b c).isAlpha = c.isAlpha := by
  unfold pyTitleChar
  by_cases hc : c.isAlpha
  · by_cases hb : b <;> simp [hc, hb, isAlpha_toLower, isAlpha_toUpper]
  · simp [hc]

theorem isPySpace_pyTitleChar (b : Bool) (c : Char) :
    isPySpace (pyTitleChar b c) = isPySpace c := by
  unfold pyTitleChar
  by_cases hc : c.isAlpha
  · by_cases hb : b <;> simp [hc, hb, isPySpace_toLower, isPySpace_toUpper]
  · simp [hc]

theorem pyTitleChar_idem (b : Bool) (c : Char) :
    pyTitleChar b (pyTitleChar b c) = pyTitleChar b c := by
  unfold pyTitleChar
  by_cases hc : c.isAlpha
  · by_cases hb : b
    · simp [hc, hb, isAlpha_toLower, toLower_toLower]
    · simp [hc, hb, isAlpha_toUpper, toUpper_toUpper]
  · simp [hc]

theorem map_isPySpace_pyTitleAux :
    ∀ b l, (pyTitleAux b l).map isPySpace = l.map isPySpace := by
  intro b l
  induction l generalizing b with
  | nil => rfl
  | cons c rest ih =>
    simp only [pyTitleAux, List.map_cons, ih, isPySpace_pyTitleChar]

theorem pyTitleAux_idem : ∀ b l, pyTitleAux b (pyTitleAux b l) = pyTitleAux b l := by
  intro b l
  induction l generalizing b with
  | nil => rfl
  | cons c rest ih =>
    simp only [pyTitleAux, isAlpha_pyTitleChar, pyTitleChar_idem, ih]

theorem pyStrip_pyTitle_pyStrip (l : List Char) :
    pyStrip (pyTitle (pyStrip l)) = pyTitle (pyStrip l) :=
  pyStrip_eq_self_of_statuses (map_isPySpace_pyTitleAux false (pyStrip l))
    (pyStrip_pyStrip l)

theorem toList_mk (l : List Char) : (String.mk l).toList = l := rfl

theorem coerceKey_fix (t : String) : coerceKey (pyTitleS (pyStripS t)) = pyTitleS (pyStripS t) := by
  unfold coerceKey pyTitleS pyStripS pyTitle
  simp only [toList_mk]
  have h2 := pyStrip_pyTitle_pyStrip t.toList
  unfold pyTitle at h2
  rw [h2, pyTitleAux_idem]

theorem coerceKey_normTitle (t : String) : coerceKey (normTitle t) = normTitle t := by
  unfold normTitle
  exact coerceKey_fix _

theorem mergeInto_map_title (acc : List SummarySection) (t : String) (bs : List String) :
    (mergeInto acc t bs).map SummarySection.title = acc.map SummarySection.title := by
  induction acc with
  | nil => rfl
  | cons u us ih =>
    rw [mergeInto]
    by_cases h : coerceKey u.title = t
    · rw [if_pos h]
      rfl
    · rw [if_neg h]
      simp only [List.map_cons, ih]

theorem coerceLoop_keys_nodup :
    ∀ secs seen (acc : List SummarySection),
      (acc.map (fun sec => coerceKey sec.title)).Nodup →
      (∀ k, k ∈ seen ↔ k ∈ acc.map (fun sec => coerceKey sec.title)) →
      ((coerceLoop seen acc secs).map (fun sec => coerceKey sec.title)).Nodup := by
  intro secs
  induction secs with
  | nil =>
    intro seen acc h1 _
    exact h1
  | cons sec rest ih =>
    intro seen acc h1 h2
    rw [coerceLoop]
    by_cases ht : normTitle sec.title ∈ seen
    · rw [if_pos ht]
      have hkeys : (mergeInto acc (normTitle sec.title) sec.bullets).map
          (fun sec => coerceKey sec.title) = acc.map (fun sec => coerceKey sec.title) := by
        have := mergeInto_map_title acc (normTitle sec.title) sec.bullets
        have hcomp : ∀ l : List SummarySection,
            l.map (fun sec => coerceKey sec.title) =
              (l.map SummarySection.title).map coerceKey := by
          intro l
          rw [List.map_map]
          rfl
        rw [hcomp, hcomp, this]
      apply ih
      · rw [hkeys]
        exact h1
      · intro k
        rw [hkeys]
        exact h2 k
    · rw [if_neg ht]
      apply ih
      · simp only [List.map_append, List.map_cons, List.map_nil]
        rw [List.nodup_append]
        refine ⟨h1, List.nodup_singleton _, ?_⟩
        intro a ha hb
        simp only [List.mem_singleton] at hb
        subst hb
        rw [coerceKey_normTitle] at ha
        exact ht ((h2 _).mpr ha)
      · intro k
        simp only [List.mem_cons, List.map_append, List.map_cons, List.map_nil,
          List.mem_append, List.mem_singleton, coerceKey_normTitle]
        rw [← h2 k]
        tauto

/-- Claim C3: after `_coerce_single_summary`, each section title —
case/whitespace-normalized with the code's `strip().title()` key — appears
at most once; and the concrete three-variant input (`"summary"`,
`"Summary"`, `" SUMMARY "`) collapses to a single `"Summary"` section whose
bullets are the deduplicated union of the inputs' bullets in encounter
order. -/
theorem claim_C3_section_uniqueness :
    (∀ s : SummaryResponse,
      ((_coerce_single_summary s).sections.map (fun sec => coerceKey sec.title)).Nodup)
    ∧ _coerce_single_summary summaryC3input =
        { doc_id := none, style := "patient-friendly",
          sections := [⟨"Summary", ["Take aspirin", "Rest", "Drink water"], []⟩],
          risks := [], redactions_applied := false } := by
  constructor
  · intro s
    apply coerceLoop_keys_nodup
    · simp
    · simp
  · decide

theorem string_toList_inj {a b : String} (h : a.toList = b.toList) : a = b := by
  cases a
  cases b
  exact congrArg String.mk h

theorem headingLine_toList (t : String) :
    (headingLine t).toList = '*' :: '*' :: (t.toList ++ [':', '*', '*']) := by
  unfold headingLine
  show (("**" ++ t) ++ ":**").data = _
  rw [String.data_append, String.data_append]
  show (['*', '*'] ++ t.data) ++ [':', '*', '*'] = _
  simp

theorem headingLine_inj {t t' : String} (h : headingLine t = headingLine t') : t = t' := by
  have h2 := congrArg String.toList h
  rw [headingLine_toList, headingLine_toList] at h2
  simp only [List.cons.injEq, true_and] at h2
  exact string_toList_inj (List.append_cancel_right h2)

theorem headingLine_ne_dash (t b : String) : headingLine t ≠ "- " ++ b := by
  intro h
  have h2 := congrArg String.toList h
  rw [headingLine_toList] at h2
  have h3 : ("- " ++ b).toList = '-' :: ' ' :: b.toList := by
    show ("- " ++ b).data = _
    rw [String.data_append]
    rfl
  rw [h3] at h2
  simp at h2

theorem headingLine_ne_empty (t : String) : headingLine t ≠ "" := by
  intro h
  have h2 := congrArg String.toList h
  rw [headingLine_toList] at h2
  simp at h2

theorem dedupeAux_keys :
    ∀ items seen,
      ((dedupeAux seen items).map bulletKey).Nodup ∧
      ∀ x ∈ dedupeAux seen items, bulletKey x ∉ seen := by
  intro items
  induction items with
  | nil => intro seen; exact ⟨List.nodup_nil, by simp [dedupeAux]⟩
  | cons it rest ih =>
    intro seen
    rw [dedupeAux]
    by_cases hk : bulletKey it = "" ∨ bulletKey it ∈ seen
    · rw [if_pos hk]
      exact ih seen
    · rw [if_neg hk]
      push_neg at hk
      constructor
      · simp only [List.map_cons, List.nodup_cons]
        refine ⟨?_, (ih _).1⟩
        intro hmem
        obtain ⟨x, hx, hkey⟩ := List.mem_map.mp hmem
        have := (ih (bulletKey it :: seen)).2 x hx
        rw [hkey] at this
        exact this (List.mem_cons_self _ _)
      · intro x hx
        rcases List.mem_cons.mp hx with h | h
        · subst h
          exact hk.2
        · have := (ih (bulletKey it :: seen)).2 x h
          intro hc
          exact this (List.mem_cons_of_mem _ hc)

theorem dedupeAux_sublist : ∀ items seen, List.Sublist (dedupeAux seen items) items := by
  intro items
  induction items with
  | nil => intro seen; simp [dedupeAux]
  | cons it rest ih =>
    intro seen
    rw [dedupeAux]
    by_cases hk : bulletKey it = "" ∨ bulletKey it ∈ seen
    · rw [if_pos hk]
      exact (ih seen).cons it
    · rw [if_neg hk]
      exact (ih (bulletKey it :: seen)).cons₂ it

theorem dedupeAux_key_ne_empty :
    ∀ items seen y, y ∈ dedupeAux seen items → bulletKey y ≠ "" := by
  intro items
  induction items with
  | nil => intro seen y hy; simp [dedupeAux] at hy
  | cons it rest ih =>
    intro seen y hy
    rw [dedupeAux] at hy
    by_cases hk : bulletKey it = "" ∨ bulletKey it ∈ seen
    · rw [if_pos hk] at hy
      exact ih seen y hy
    · rw [if_neg hk] at hy
      push_neg at hk
      rcases List.mem_cons.mp hy with h | h
      · subst h
        exact hk.1
      · exact ih (bulletKey it :: seen) y h

theorem dedupeAux_covers :
    ∀ items seen x, x ∈ items → bulletKey x ≠ "" → bulletKey x ∉ seen →
      ∃ y ∈ dedupeAux seen items, bulletKey y = bulletKey x := by
  intro items
  induction items with
  | nil => intro seen x hx _ _; simp at hx
  | cons it rest ih =>
    intro seen x hx hne hns
    rw [dedupeAux]
    by_cases hk : bulletKey it = "" ∨ bulletKey it ∈ seen
    · rw [if_pos hk]
      rcases List.mem_cons.mp hx with h | h
      · subst h
        rcases hk with h1 | h1
        · exact absurd h1 hne
        · exact absurd h1 hns
      · exact ih seen x h hne hns
    · rw [if_neg hk]
      by_cases he : bulletKey x = bulletKey it
      · exact ⟨it, List.mem_cons_self _ _, he.symm⟩
      · rcases List.mem_cons.mp hx with h | h
        · exact absurd (h ▸ rfl) he
        · have hns2 : bulletKey x ∉ bulletKey it :: seen := by
            intro hc
            rcases List.mem_cons.mp hc with hc1 | hc1
            · exact he hc1
            · exact hns hc1
          obtain ⟨y, hy, hky⟩ := ih (bulletKey it :: seen) x h hne hns2
          exact ⟨y, List.mem_cons_of_mem _ hy, hky⟩

theorem dedupeAux_first :
    ∀ items seen l₁ y l₂, dedupeAux seen items = l₁ ++ y :: l₂ →
      ∃ m₁ m₂, items = m₁ ++ y :: m₂ ∧ ∀ x ∈ m₁, bulletKey x ≠ bulletKey y := by
  intro items
  induction items with
  | nil =>
    intro seen l₁ y l₂ h
    simp [dedupeAux] at h
  | cons it rest ih =>
    intro seen l₁ y l₂ h
    rw [dedupeAux] at h
    by_cases hk : bulletKey it = "" ∨ bulletKey it ∈ seen
    · rw [if_pos hk] at h
      obtain ⟨m₁, m₂, hm, hne⟩ := ih seen l₁ y l₂ h
      have hymem : y ∈ dedupeAux seen rest := by
        rw [h]
        exact List.mem_append_right _ (List.mem_cons_self _ _)
      refine ⟨it :: m₁, m₂, by rw [hm, List.cons_append], ?_⟩
      intro x hx
      rcases List.mem_cons.mp hx with h1 | h1
      · subst h1
        rcases hk with h2 | h2
        · intro hc
          exact dedupeAux_key_ne_empty rest seen y hymem (by rw [← hc, h2])
        · intro hc
          exact (dedupeAux_keys rest seen).2 y hymem (hc ▸ h2)
      · exact hne x h1
    · rw [if_neg hk] at h
      cases l₁ with
      | nil =>
        simp only [List.nil_append] at h
        injection h with h1 h2
        refine ⟨[], rest, ?_, ?_⟩
        · rw [List.nil_append, h1]
        · intro x hx
          simp at hx
      | cons a l₁' =>
        simp only [List.cons_append] at h
        injection h with h1 h2
        obtain ⟨m₁, m₂, hm, hne⟩ := ih (bulletKey it :: seen) l₁' y l₂ h2
        have hymem : y ∈ dedupeAux (bulletKey it :: seen) rest := by
          rw [h2]
          exact List.mem_append_right _ (List.mem_cons_self _ _)
        refine ⟨it :: m₁, m₂, by rw [hm, List.cons_append], ?_⟩
        intro x hx
        rcases List.mem_cons.mp hx with hx1 | hx1
        · intro hc
          apply (dedupeAux_keys rest (bulletKey it :: seen)).2 y hymem
          rw [← hc, hx1]
          exact List.mem_cons_self _ _
        · exact hne x hx1

theorem lookupBullets_upsert (m : List (String × List String)) (k : String)
    (bs : List String) (t : String) :
    lookupBullets (upsert m k bs) t =
      if t = k then lookupBullets m t ++ bs else lookupBullets m t := by
  induction m with
  | nil =>
    unfold upsert lookupBullets
    by_cases h : t = k
    · rw [if_pos h.symm, if_pos h]
      rfl
    · rw [if_neg (fun hc => h hc.symm), if_neg h]
      rfl
  | cons kv rest ih =>
    obtain ⟨k', v⟩ := kv
    rw [upsert]
    by_cases hk : k' = k
    · rw [if_pos hk]
      subst hk
      unfold lookupBullets
      by_cases ht : k' = t
      · rw [if_pos ht, if_pos ht, if_pos ht.symm]
      · rw [if_neg ht, if_neg ht, if_neg (fun hc => ht hc.symm)]
    · rw [if_neg hk]
      unfold lookupBullets
      by_cases ht : k' = t
      · rw [if_pos ht, if_pos ht]
        have : ¬ t = k := fun hc => hk (ht.trans hc)
        rw [if_neg this]
      · rw [if_neg ht, if_neg ht]
        exact ih

theorem buildMap_mem_strip :
    ∀ (secs : List SummarySection) (m : List (String × List String)) (t b : String),
      b ∈ lookupBullets (secs.foldl (fun m sec =>
          upsert m (normTitle sec.title) (strippedBullets sec.bullets)) m) t →
      b ∈ lookupBullets m t ∨ ∃ sec ∈ secs, ∃ b0 ∈ sec.bullets, b = pyStripS b0 := by
  intro secs
  induction secs with
  | nil => intro m t b h; exact Or.inl h
  | cons sec rest ih =>
    intro m t b h
    rw [List.foldl_cons] at h
    rcases ih _ t b h with h1 | h1
    · rw [lookupBullets_upsert] at h1
      by_cases ht : t = normTitle sec.title
      · rw [if_pos ht] at h1
        rcases List.mem_append.mp h1 with h2 | h2
        · exact Or.inl h2
        · right
          unfold strippedBullets at h2
          obtain ⟨b0, hb0, he⟩ := List.mem_map.mp h2
          exact ⟨sec, List.mem_cons_self _ _, b0, List.mem_of_mem_filter hb0, he.symm⟩
      · rw [if_neg ht] at h1
        exact Or.inl h1
    · obtain ⟨sec', hs, b0, hb0, he⟩ := h1
      exact Or.inr ⟨sec', List.mem_cons_of_mem _ hs, b0, hb0, he⟩

theorem count_headingLine_renderBlock (m : List (String × List String)) (t t' : String)
    (hNS : ∀ b ∈ lookupBullets m "Next Steps", b ≠ headingLine t) :
    (renderBlock m t').count (headingLine t) ≤ if t' = t then 1 else 0 := by
  unfold renderBlock
  by_cases h0 : lookupBullets m t' = [] ∧ t' ≠ "Next Steps"
  · rw [if_pos h0]
    simp only [List.count_nil]
    exact Nat.zero_le _
  · rw [if_neg h0]
    by_cases hns : t' = "Next Steps"
    · rw [if_pos hns]
      have hrest : ((match lookupBullets m t' with
          | [] => []
          | b :: _ => [b]) ++ [""]).count (headingLine t) = 0 := by
        rw [List.count_eq_zero]
        intro hmem
        rcases List.mem_append.mp hmem with h2 | h2
        · match hl : lookupBullets m t', h2 with
          | b :: _, h2 =>
            simp only [List.mem_singleton] at h2
            have hb : b ∈ lookupBullets m "Next Steps" := by
              rw [← hns, hl]
              exact List.mem_cons_self _ _
            exact hNS b hb h2.symm
        · simp only [List.mem_singleton] at h2
          exact headingLine_ne_empty t h2
      rw [List.count_cons, hrest]
      by_cases ht : t' = t
      · rw [if_pos ht, ht]
        simp
      · rw [if_neg ht]
        rw [beq_eq_false_iff_ne.mpr (fun hc => ht (headingLine_inj hc))]
        simp
    · rw [if_neg hns]
      have hrest : ((((_dedupe_preserve (lookupBullets m t')).take 8).map
          (fun b => "- " ++ b)) ++ [""]).count (headingLine t) = 0 := by
        rw [List.count_eq_zero]
        intro hmem
        rcases List.mem_append.mp hmem with h2 | h2
        · obtain ⟨b, _, he⟩ := List.mem_map.mp h2
          exact headingLine_ne_dash t b he.symm
        · simp only [List.mem_singleton] at h2
          exact headingLine_ne_empty t h2
      rw [List.count_cons, hrest]
      by_cases ht : t' = t
      · rw [if_pos ht, ht]
        simp
      · rw [if_neg ht]
        rw [beq_eq_false_iff_ne.mpr (fun hc => ht (headingLine_inj hc))]
        simp

theorem sum_indicator_eq_count (l : List String) (t : String) :
    (l.map (fun x => if x = t then 1 else 0)).sum = l.count t := by
  induction l with
  | nil => rfl
  | cons x rest ih =>
    rw [List.map_cons, List.sum_cons, List.count_cons, ih]
    by_cases h : x = t
    · rw [if_pos h, beq_iff_eq.mpr h, if_pos rfl]
      omega
    · rw [if_neg h, beq_eq_false_iff_ne.mpr h]
      simp

/-- Claim C4 (amended with the hypothesis that no bullet's stripped text is
itself a canonical heading line — without it the `Next Steps` section, which
renders its first bullet verbatim, can duplicate a heading): every
canonical heading occurs at most once among the rendered lines; the
`Next Steps` heading is always present; every other rendered section shows
exactly the first 8 entries of the order-preserving deduplication of its
collected input bullets, as dash lines with pairwise-distinct
case/whitespace-insensitive keys; and the deduplication itself is an
order-preserving subsequence of its input that represents every nonempty
key and keeps precisely the first occurrence of each key. -/
theorem claim_C4_renderer_invariants (s : SummaryResponse)
    (H : ∀ sec ∈ s.sections, ∀ b ∈ sec.bullets, ∀ t ∈ canonicalOrder,
      pyStripS b ≠ headingLine t) :
    (∀ t ∈ canonicalOrder, (renderLines s).count (headingLine t) ≤ 1)
    ∧ headingLine "Next Steps" ∈ renderLines s
    ∧ (∀ t ∈ canonicalOrder, t ≠ "Next Steps" →
        renderBlock (buildSectionsMap s.sections) t = [] ∨
        ∃ bs : List String,
          bs = (_dedupe_preserve (lookupBullets (buildSectionsMap s.sections) t)).take 8
          ∧ bs.length ≤ 8 ∧ (bs.map bulletKey).Nodup
          ∧ renderBlock (buildSectionsMap s.sections) t =
              headingLine t :: (bs.map (fun b => "- " ++ b) ++ [""]))
    ∧ (∀ l : List String,
        List.Sublist (_dedupe_preserve l) l
        ∧ ((_dedupe_preserve l).map bulletKey).Nodup
        ∧ (∀ x ∈ l, bulletKey x ≠ "" → ∃ y ∈ _dedupe_preserve l, bulletKey y = bulletKey x)
        ∧ (∀ l₁ y l₂, _dedupe_preserve l = l₁ ++ y :: l₂ →
            ∃ m₁ m₂, l = m₁ ++ y :: m₂ ∧ ∀ x ∈ m₁, bulletKey x ≠ bulletKey y)) := by
  have hNS : ∀ t ∈ canonicalOrder,
      ∀ b ∈ lookupBullets (buildSectionsMap s.sections) "Next Steps",
        b ≠ headingLine t := by
    intro t ht b hb
    rcases buildMap_mem_strip s.sections [] "Next Steps" b hb with h | ⟨sec, hs, b0, hb0, he⟩
    · exact absurd h (by simp [lookupBullets])
    · rw [he]
      exact H sec hs b0 hb0 t ht
  refine ⟨?_, ?_, ?_, ?_⟩
  · intro t ht
    rw [renderLines, List.count_flatten, List.map_map]
    have hb : ∀ t' ∈ canonicalOrder,
        (List.count (headingLine t) ∘ renderBlock (buildSectionsMap s.sections)) t' ≤
          (fun t' => if t' = t then 1 else 0) t' := by
      intro t' _
      exact count_headingLine_renderBlock _ t t' (hNS t ht)
    calc (canonicalOrder.map
          (List.count (headingLine t) ∘ renderBlock (buildSectionsMap s.sections))).sum
        ≤ (canonicalOrder.map (fun t' => if t' = t then 1 else 0)).sum :=
          List.sum_le_sum hb
      _ = canonicalOrder.count t := sum_indicator_eq_count _ _
      _ ≤ 1 := List.nodup_iff_count_le_one.mp (by decide) t
  · rw [renderLines]
    apply List.mem_flatten.mpr
    refine ⟨renderBlock (buildSectionsMap s.sections) "Next Steps",
      List.mem_map_of_mem _ (by decide), ?_⟩
    unfold renderBlock
    rw [if_neg (by simp), if_pos rfl]
    exact List.mem_cons_self _ _
  · intro t ht htns
    unfold renderBlock
    by_cases h0 : lookupBullets (buildSectionsMap s.sections) t = [] ∧ t ≠ "Next Steps"
    · left
      rw [if_pos h0]
    · right
      rw [if_neg h0, if_neg htns]
      refine ⟨(_dedupe_preserve (lookupBullets (buildSectionsMap s.sections) t)).take 8,
        rfl, List.length_take_le _ _, ?_, rfl⟩
      rw [List.map_take]
      exact List.Nodup.sublist (List.take_sublist _ _)
        (dedupeAux_keys (lookupBullets (buildSectionsMap s.sections) t) []).1
  · intro l
    refine ⟨dedupeAux_sublist l [], (dedupeAux_keys l []).1, ?_, ?_⟩
    · intro x hx hne
      exact dedupeAux_covers l [] x hx hne (by simp)
    · intro l₁ y l₂ h
      exact dedupeAux_first l [] l₁ y l₂ h

/-- Counterexample to claim C4 as stated: a `SummaryResult` whose
`Next Steps` bullet is the literal heading line `**Summary:**` makes the
renderer emit that canonical heading line twice. -/
theorem claim_C4_counterexample :
    "Summary" ∈ canonicalOrder
    ∧ (renderLines summaryC4bad).count (headingLine "Summary") = 2 := by
  decide

/-- Witness for C4's amended theorem at a concrete input. -/
theorem claim_C4_renderer_invariants_witness :
    (∀ t ∈ canonicalOrder, (renderLines summaryC4ok).count (headingLine t) ≤ 1)
    ∧ headingLine "Next Steps" ∈ renderLines summaryC4ok
    ∧ (∀ t ∈ canonicalOrder, t ≠ "Next Steps" →
        renderBlock (buildSectionsMap summaryC4ok.sections) t = [] ∨
        ∃ bs : List String,
          bs = (_dedupe_preserve
              (lookupBullets (buildSectionsMap summaryC4ok.sections) t)).take 8
          ∧ bs.length ≤ 8 ∧ (bs.map bulletKey).Nodup
          ∧ renderBlock (buildSectionsMap summaryC4ok.sections) t =
              headingLine t :: (bs.map (fun b => "- " ++ b) ++ [""]))
    ∧ (∀ l : List String,
        List.Sublist (_dedupe_preserve l) l
        ∧ ((_dedupe_preserve l).map bulletKey).Nodup
        ∧ (∀ x ∈ l, bulletKey x ≠ "" → ∃ y ∈ _dedupe_preserve l, bulletKey y = bulletKey x)
        ∧ (∀ l₁ y l₂, _dedupe_preserve l = l₁ ++ y :: l₂ →
            ∃ m₁ m₂, l = m₁ ++ y :: m₂ ∧ ∀ x ∈ m₁, bulletKey x ≠ bulletKey y)) :=
  claim_C4_renderer_invariants summaryC4ok (by decide)

theorem lookup_fold_filter :
    ∀ (secs : List SummarySection) (m m' : List (String × List String)),
      (∀ t ∈ canonicalOrder, lookupBullets m t = lookupBullets m' t) →
      ∀ t ∈ canonicalOrder,
        lookupBullets (secs.foldl (fun m sec =>
            upsert m (normTitle sec.title) (strippedBullets sec.bullets)) m) t =
          lookupBullets (((secs.filter (fun sec =>
              decide (normTitle sec.title ∈ canonicalOrder))).foldl (fun m sec =>
            upsert m (normTitle sec.title) (strippedBullets sec.bullets)) m')) t := by
  intro secs
  induction secs with
  | nil => intro m m' h t ht; exact h t ht
  | cons sec rest ih =>
    intro m m' h t ht
    rw [List.foldl_cons, List.filter_cons]
    by_cases hP : normTitle sec.title ∈ canonicalOrder
    · rw [if_pos (by simp [hP])]
      rw [List.foldl_cons]
      refine ih _ _ ?_ t ht
      intro t' ht'
      rw [lookupBullets_upsert, lookupBullets_upsert]
      by_cases he : t' = normTitle sec.title
      · rw [if_pos he, if_pos he, h t' ht']
      · rw [if_neg he, if_neg he]
        exact h t' ht'
    · rw [if_neg (by simp [hP])]
      refine ih _ _ ?_ t ht
      intro t' ht'
      rw [lookupBullets_upsert]
      have he : ¬ t' = normTitle sec.title := fun hc => hP (hc ▸ ht')
      rw [if_neg he]
      exact h t' ht'

/-- Claim C10: a section whose normalized title is not one of the nine
canonical titles contributes nothing to the rendered output — rendering a
result equals rendering the same result with all non-canonically-titled
sections removed. -/
theorem claim_C10_noncanonical_sections_dropped (s : SummaryResponse) :
    _render_summary_markdown s =
      _render_summary_markdown
        { s with
          sections :=
            s.sections.filter (fun sec => decide (normTitle sec.title ∈ canonicalOrder)) } := by
  unfold _render_summary_markdown renderLines
  have hlk0 := lookup_fold_filter s.sections [] [] (fun _ _ => rfl)
  have hlk : ∀ t ∈ canonicalOrder,
      lookupBullets (buildSectionsMap s.sections) t =
        lookupBullets (buildSectionsMap
          (s.sections.filter (fun sec => decide (normTitle sec.title ∈ canonicalOrder)))) t := by
    intro t ht
    unfold buildSectionsMap
    exact hlk0 t ht
  have hblk : canonicalOrder.map (renderBlock (buildSectionsMap s.sections)) =
      canonicalOrder.map (renderBlock (buildSectionsMap
        (s.sections.filter (fun sec => decide (normTitle sec.title ∈ canonicalOrder))))) := by
    apply List.map_congr_left
    intro t ht
    unfold renderBlock
    rw [hlk t ht]
  rw [hblk]

theorem runsOf_wf (p : Char → Bool) :
    ∀ l cur, (∀ c ∈ cur, p c = true) →
      ∀ kw ∈ runsOf p cur l, kw ≠ [] ∧ ∀ c ∈ kw, p c = true := by
  intro l
  induction l with
  | nil =>
    intro cur hcur kw hkw
    rw [runsOf] at hkw
    by_cases hc : cur = []
    · rw [if_pos hc] at hkw
      simp at hkw
    · rw [if_neg hc] at hkw
      simp only [List.mem_singleton] at hkw
      subst hkw
      refine ⟨by simpa using hc, ?_⟩
      intro c hcmem
      exact hcur c (List.mem_reverse.mp hcmem)
  | cons c rest ih =>
    intro cur hcur kw hkw
    rw [runsOf] at hkw
    by_cases hp : p c
    · rw [if_pos hp] at hkw
      refine ih (c :: cur) ?_ kw hkw
      intro d hd
      rcases List.mem_cons.mp hd with h | h
      · rw [h]; exact hp
      · exact hcur d h
    · rw [if_neg hp] at hkw
      by_cases hc : cur = []
      · rw [if_pos hc] at hkw
        exact ih [] (by simp) kw hkw
      · rw [if_neg hc] at hkw
        rcases List.mem_cons.mp hkw with h | h
        · subst h
          refine ⟨by simpa using hc, ?_⟩
          intro d hdmem
          exact hcur d (List.mem_reverse.mp hdmem)
        · exact ih [] (by simp) kw h

theorem isDigit_iff_toNat {c : Char} : c.isDigit = true ↔ 48 ≤ c.toNat ∧ c.toNat ≤ 57 := by
  unfold Char.isDigit
  rw [Bool.and_eq_true, decide_eq_true_iff, decide_eq_true_iff, ge_iff_le,
    uint32_le_iff_toNat, uint32_le_iff_toNat]
  exact Iff.rfl

theorem isWordChar_not_pySpace {c : Char} (h : isWordChar c = true) :
    isPySpace c = false := by
  unfold isWordChar Char.isAlphanum at h
  rw [Bool.or_eq_true, Bool.or_eq_true] at h
  rw [isPySpace_eq_decide, decide_eq_false_iff_not]
  rcases h with (h | h) | h
  · rw [isAlpha_eq_decide, decide_eq_true_iff] at h
    omega
  · rw [isDigit_iff_toNat] at h
    omega
  · rw [decide_eq_true_iff, char_eq_iff_toNat] at h
    have h95 : ('_').toNat = 95 := rfl
    rw [h95] at h
    omega

theorem pyLower_pyStrip (l : List Char) : pyLower (pyStrip l) = pyStrip (pyLower l) := by
  have hpf : isPySpace ∘ pyLowerChar = isPySpace := funext fun c => isPySpace_toLower c
  have hcomm : ∀ x : List Char,
      List.dropWhile isPySpace (x.map pyLowerChar) =
        (List.dropWhile isPySpace x).map pyLowerChar := by
    intro x
    rw [List.dropWhile_map, hpf]
  unfold pyLower pyStrip List.rdropWhile
  rw [hcomm, ← List.map_reverse, hcomm, ← List.map_reverse]

theorem countAux_head_miss (kw : List Char) (c : Char) (rest : List Char)
    (h : kw.isPrefixOf (c :: rest) = false) :
    countAux kw (c :: rest) = countAux kw rest := by
  rw [countAux, if_neg (by simp [h])]

theorem isPrefixOf_head_ne {k : Char} {ks : List Char} {c : Char} {l : List Char}
    (h : k ≠ c) : (k :: ks).isPrefixOf (c :: l) = false := by
  simp [List.isPrefixOf, h]

theorem countAux_all_ws (kw : List Char) (k : Char) (ks : List Char)
    (hkw : kw = k :: ks) (hk : isPySpace k = false) :
    ∀ w, (∀ c ∈ w, isPySpace c = true) → countAux kw w = 0 := by
  intro w
  induction w with
  | nil => intro _; rw [countAux]
  | cons c w' ih =>
    intro hw
    have hne : k ≠ c := by
      intro he
      rw [he] at hk
      rw [hw c (List.mem_cons_self _ _)] at hk
      simp at hk
    rw [hkw, countAux_head_miss _ _ _ (isPrefixOf_head_ne hne), ← hkw]
    exact ih (fun d hd => hw d (List.mem_cons_of_mem _ hd))

theorem isPrefixOf_append_ws :
    ∀ (kw : List Char), (∀ c ∈ kw, isPySpace c = false) →
      ∀ (x w : List Char), (∀ c ∈ w, isPySpace c = true) →
        kw.isPrefixOf (x ++ w) = kw.isPrefixOf x := by
  intro kw
  induction kw with
  | nil => intro _ x w _; simp [List.isPrefixOf]
  | cons k ks ih =>
    intro hkw x w hw
    match x with
    | [] =>
      simp only [List.nil_append]
      match w with
      | [] => rfl
      | c :: w' =>
        have hne : k ≠ c := by
          intro he
          have h1 := hkw k (List.mem_cons_self _ _)
          rw [he, hw c (List.mem_cons_self _ _)] at h1
          simp at h1
        rw [isPrefixOf_head_ne hne]
        rfl
    | a :: x' =>
      simp only [List.cons_append, List.isPrefixOf, List.append_eq]
      rw [ih (fun c hc => hkw c (List.mem_cons_of_mem _ hc)) x' w hw]

theorem countAux_append_ws (k : Char) (ks : List Char)
    (hkw : ∀ c ∈ k :: ks, isPySpace c = false)
    (w : List Char) (hw : ∀ c ∈ w, isPySpace c = true) :
    ∀ n t, t.length ≤ n → countAux (k :: ks) (t ++ w) = countAux (k :: ks) t := by
  intro n
  induction n with
  | zero =>
    intro t ht
    have : t = [] := List.length_eq_zero.mp (by omega)
    subst this
    simp only [List.nil_append]
    rw [countAux_all_ws (k :: ks) k ks rfl (hkw k (List.mem_cons_self _ _)) w hw]
    rw [countAux]
  | succ n ih =>
    intro t ht
    match t with
    | [] =>
      simp only [List.nil_append]
      rw [countAux_all_ws (k :: ks) k ks rfl (hkw k (List.mem_cons_self _ _)) w hw]
      rw [countAux]
    | c :: t' =>
      have hpre : (k :: ks).isPrefixOf (c :: t' ++ w) = (k :: ks).isPrefixOf (c :: t') := by
        have := isPrefixOf_append_ws (k :: ks) hkw (c :: t') w hw
        simpa using this
      by_cases hp : (k :: ks).isPrefixOf (c :: t') = true
      · have hlen : (k :: ks).length ≤ (c :: t').length := List.IsPrefix.length_le
          (List.isPrefixOf_iff_prefix.mp hp)
        simp only [List.length_cons] at hlen
        rw [List.cons_append, countAux, if_pos (by rw [← List.cons_append, hpre]; exact hp)]
        rw [countAux, if_pos hp]
        have hdist : (t' ++ w).drop ((k :: ks).length - 1) =
            t'.drop ((k :: ks).length - 1) ++ w := by
          apply List.drop_append_of_le_length
          simp only [List.length_cons]
          omega
        rw [hdist, ih (t'.drop ((k :: ks).length - 1)) (by
          simp only [List.length_drop, List.length_cons] at *
          omega)]
      · have hp' : (k :: ks).isPrefixOf (c :: t') = false := by
          rwa [Bool.not_eq_true] at hp
        rw [List.cons_append, countAux_head_miss _ _ _ (by rw [← List.cons_append, hpre]; exact hp')]
        rw [countAux_head_miss _ _ _ hp']
        exact ih t' (by simp only [List.length_cons] at ht; omega)

theorem countAux_dropWhile_ws (k : Char) (ks : List Char)
    (hk : isPySpace k = false) :
    ∀ u, countAux (k :: ks) (u.dropWhile isPySpace) = countAux (k :: ks) u := by
  intro u
  induction u with
  | nil => rfl
  | cons c u' ih =>
    rw [List.dropWhile_cons]
    by_cases hc : isPySpace c
    · rw [if_pos hc]
      have hne : k ≠ c := by
        intro he
        rw [he, hc] at hk
        simp at hk
      rw [ih, countAux_head_miss _ _ _ (isPrefixOf_head_ne hne)]
    · rw [if_neg hc]

theorem countAux_pyStrip (k : Char) (ks : List Char)
    (hkw : ∀ c ∈ k :: ks, isPySpace c = false) (u : List Char) :
    countAux (k :: ks) (pyStrip u) = countAux (k :: ks) u := by
  unfold pyStrip
  set v := u.dropWhile isPySpace with hv
  have hsplit : List.rdropWhile isPySpace v ++ (v.reverse.takeWhile isPySpace).reverse = v := by
    unfold List.rdropWhile
    rw [← List.reverse_append, List.takeWhile_append_dropWhile, List.reverse_reverse]
  have hwws : ∀ c ∈ (v.reverse.takeWhile isPySpace).reverse, isPySpace c = true := by
    intro c hc
    exact List.mem_takeWhile_imp (List.mem_reverse.mp hc)
  calc countAux (k :: ks) (List.rdropWhile isPySpace v)
      = countAux (k :: ks) (List.rdropWhile isPySpace v ++
          (v.reverse.takeWhile isPySpace).reverse) := by
        rw [countAux_append_ws k ks hkw _ hwws (List.rdropWhile isPySpace v).length _ le_rfl]
    _ = countAux (k :: ks) v := by rw [hsplit]
    _ = countAux (k :: ks) u := countAux_dropWhile_ws k ks (hkw k (List.mem_cons_self _ _)) u

theorem countScan_eq_countAux (kw : List Char) :
    ∀ l skip, countScan kw skip l = countAux kw (l.drop skip) := by
  intro l
  induction l with
  | nil =>
    intro skip
    rw [List.drop_nil, countScan, countAux]
  | cons c rest ih =>
    intro skip
    match skip with
    | 0 =>
      rw [List.drop_zero, countScan, countAux]
      by_cases hp : kw.isPrefixOf (c :: rest) = true
      · rw [if_pos hp, if_pos hp, ih (kw.length - 1)]
      · rw [if_neg hp, if_neg hp, ih 0, List.drop_zero]
    | skip' + 1 =>
      rw [countScan, List.drop_succ_cons]
      exact ih skip'

theorem countOccs_pyStrip (kw : List Char) (hne : kw ≠ [])
    (hkw : ∀ c ∈ kw, isPySpace c = false) (u : List Char) :
    countOccs kw (pyStrip u) = countOccs kw u := by
  unfold countOccs
  rw [if_neg hne, if_neg hne, countScan_eq_countAux, countScan_eq_countAux,
    List.drop_zero, List.drop_zero]
  match kw, hne with
  | k :: ks, _ => exact countAux_pyStrip k ks hkw u

theorem keywordScore_pyStrip (kws : List (List Char))
    (hkws : ∀ kw ∈ kws, kw ≠ [] ∧ ∀ c ∈ kw, isPySpace c = false) (u : List Char) :
    keywordScore kws (pyLower (pyStrip u)) = keywordScore kws (pyLower u) := by
  unfold keywordScore
  by_cases h0 : kws.length = 0
  · rw [if_pos h0, if_pos h0]
  · rw [if_neg h0, if_neg h0, pyLower_pyStrip]
    have hmap : kws.map (fun kw => countOccs kw (pyStrip (pyLower u))) =
        kws.map (fun kw => countOccs kw (pyLower u)) := by
      apply List.map_congr_left
      intro kw hkw
      exact countOccs_pyStrip kw (hkws kw hkw).1 (hkws kw hkw).2 (pyLower u)
    rw [hmap]

theorem snippetLoop_mem (text : List Char) (kws : List (List Char)) (maxS window : Nat) :
    ∀ spans seen count s, s ∈ snippetLoop text kws maxS window spans seen count →
      ∃ ms me, s = mkSnippet text kws window ms me := by
  intro spans
  induction spans with
  | nil =>
    intro seen count s hs
    simp [snippetLoop] at hs
  | cons m rest ih =>
    intro seen count s hs
    obtain ⟨ms, me⟩ := m
    simp only [snippetLoop] at hs
    by_cases hseen : seen.any (fun p => natDist ms p < window)
    · rw [if_pos hseen] at hs
      exact ih seen count s hs
    · rw [if_neg hseen] at hs
      by_cases hcnt : maxS ≤ count + 1
      · rw [if_pos hcnt] at hs
        simp only [List.mem_singleton] at hs
        exact ⟨ms, me, hs⟩
      · rw [if_neg hcnt] at hs
        rcases List.mem_cons.mp hs with h | h
        · exact ⟨ms, me, h⟩
        · exact ih _ _ s h

theorem findallWords_wf (q : List Char) :
    ∀ kw ∈ findallWords q, kw ≠ [] ∧ ∀ c ∈ kw, isPySpace c = false := by
  intro kw hkw
  obtain ⟨hne, hall⟩ := runsOf_wf isWordChar q [] (by simp) kw hkw
  exact ⟨hne, fun c hc => isWordChar_not_pySpace (hall c hc)⟩

theorem snippetGE_trans : ∀ a b c : DocumentSnippet,
    snippetGE a b → snippetGE b c → snippetGE a c := by
  intro a b c h1 h2
  exact le_trans h2 h1

theorem snippetGE_total : ∀ a b : DocumentSnippet, snippetGE a b ∨ snippetGE b a := by
  intro a b
  exact le_total b.relevance_score a.relevance_score

instance : IsTotal DocumentSnippet snippetGE := ⟨snippetGE_total⟩

instance : IsTrans DocumentSnippet snippetGE := ⟨snippetGE_trans⟩

/-- Claim C7 (amended: the code divides the summed per-keyword occurrence
counts of the token list *with multiplicity* by the length of that list,
not by the number of distinct tokens): each returned snippet's
`relevance_score` is the keyword-density of its own text under the code's
formula, the returned sequence is sorted by descending `relevance_score`,
and ties keep the document encounter order (the order of the pre-sort
results list). -/
theorem claim_C7_retrieval_ranking (full_text query : List Char)
    (maxSnippets window : Nat) :
    (∀ s ∈ extract_snippets full_text query maxSnippets window,
        s.relevance_score =
          keywordScore (findallWords (pyLower query)) (pyLower s.text.toList))
    ∧ (extract_snippets full_text query maxSnippets window).Pairwise
        (fun a b => b.relevance_score ≤ a.relevance_score)
    ∧ (∀ a b : DocumentSnippet, a.relevance_score = b.relevance_score →
        List.Sublist [a, b] (extract_snippets_raw full_text query maxSnippets window) →
        List.Sublist [a, b] (extract_snippets full_text query maxSnippets window)) := by
  refine ⟨?_, ?_, ?_⟩
  · intro s hs
    have hmem : s ∈ extract_snippets_raw full_text query maxSnippets window :=
      (List.perm_insertionSort snippetGE _).subset hs
    simp only [extract_snippets_raw] at hmem
    by_cases hk : findallWords (pyLower query) = []
    · rw [if_pos hk] at hmem
      simp at hmem
    · rw [if_neg hk] at hmem
      obtain ⟨ms, me, rfl⟩ := snippetLoop_mem full_text (findallWords (pyLower query))
        maxSnippets window _ [] 0 s hmem
      show keywordScore _ (pyLower (snippetWindowRaw full_text window ms me)) =
        keywordScore _ (pyLower (String.toList ⟨pyStrip (snippetWindowRaw full_text window ms me)⟩))
      rw [toList_mk]
      exact (keywordScore_pyStrip _ (findallWords_wf (pyLower query)) _).symm
  · have hs := List.sorted_insertionSort snippetGE
      (extract_snippets_raw full_text query maxSnippets window)
    exact hs.imp (fun h => h)
  · intro a b heq hsub
    exact List.sublist_insertionSort
      (List.pairwise_pair.mpr (le_of_eq heq.symm)) hsub

/-- Counterexample to claim C7 as stated: with query `"fever fever cough"`
(a duplicated token) over the text `"fever"`, the code's score is
`(1 + 1 + 0) / 3 = 2/3`, while the claimed formula — occurrences divided by
the number of *distinct* query tokens — gives `(1 + 0) / 2 = 1/2`. -/
theorem claim_C7_counterexample :
    ((extract_snippets (String.toList "fever") (String.toList "fever fever cough") 5 450).map
        (fun s => s.relevance_score) = [mkRat 2 3])
    ∧ ((extract_snippets (String.toList "fever") (String.toList "fever fever cough") 5 450).map
        (fun s => specRelevanceScore (String.toList "fever fever cough") s.text.toList) =
          [mkRat 1 2])
    ∧ mkRat 2 3 ≠ mkRat 1 2 := by
  refine ⟨by decide, by decide, by decide⟩

/-- Witness for C7's amended theorem: the score of the snippet retrieved
from `"fever"` for the query `"fever cough"` matches the code's density
formula on its own text. -/
theorem claim_C7_retrieval_ranking_witness :
    (DocumentSnippet.mk "fever" "L0-5" (mkRat 1 2)).relevance_score =
      keywordScore (findallWords (pyLower (String.toList "fever cough")))
        (pyLower (DocumentSnippet.mk "fever" "L0-5" (mkRat 1 2)).text.toList) :=
  (claim_C7_retrieval_ranking (String.toList "fever") (String.toList "fever cough") 5 450).1
    (DocumentSnippet.mk "fever" "L0-5" (mkRat 1 2)) (by decide)

theorem uniqSnippetsAux_pairwise :
    ∀ (l : List DocumentSnippet) (seen : List String),
      (uniqSnippetsAux seen l).Pairwise
          (fun a b => normSnippetKey a.text ≠ normSnippetKey b.text)
      ∧ ∀ x ∈ uniqSnippetsAux seen l, normSnippetKey x.text ∉ seen := by
  intro l
  induction l with
  | nil => intro seen; exact ⟨List.Pairwise.nil, by simp [uniqSnippetsAux]⟩
  | cons s rest ih =>
    intro seen
    rw [uniqSnippetsAux]
    by_cases hk : normSnippetKey s.text ∈ seen
    · rw [if_pos hk]
      exact ih seen
    · rw [if_neg hk]
      constructor
      · rw [List.pairwise_cons]
        refine ⟨?_, (ih _).1⟩
        intro y hy
        have := (ih (normSnippetKey s.text :: seen)).2 y hy
        intro hc
        rw [hc] at this
        exact this (List.mem_cons_self _ _)
      · intro x hx
        rcases List.mem_cons.mp hx with h | h
        · subst h
          exact hk
        · have := (ih (normSnippetKey s.text :: seen)).2 x h
          intro hc
          exact this (List.mem_cons_of_mem _ hc)

theorem uniqSnippetsAux_subset :
    ∀ (l : List DocumentSnippet) (seen : List String) (x : DocumentSnippet),
      x ∈ uniqSnippetsAux seen l → x ∈ l := by
  intro l
  induction l with
  | nil => intro seen x hx; simp [uniqSnippetsAux] at hx
  | cons s rest ih =>
    intro seen x hx
    rw [uniqSnippetsAux] at hx
    by_cases hk : normSnippetKey s.text ∈ seen
    · rw [if_pos hk] at hx
      exact List.mem_cons_of_mem _ (ih seen x hx)
    · rw [if_neg hk] at hx
      rcases List.mem_cons.mp hx with h | h
      · exact h ▸ List.mem_cons_self _ _
      · exact List.mem_cons_of_mem _ (ih _ x h)

/-- Claim C8: `extract_snippets_by_document` returns at most 5 snippets in
total, their normalized (whitespace-collapsed, case-folded) texts are
pairwise distinct, and every returned snippet's citation carries the
`doc:<id> ` prefix of one of the input documents. -/
theorem claim_C8_multi_document_cap (documents : List DocumentRec)
    (query : List Char) (maxPerDoc : Nat) :
    (extract_snippets_by_document documents query maxPerDoc).length ≤ 5
    ∧ (extract_snippets_by_document documents query maxPerDoc).Pairwise
        (fun a b => normSnippetKey a.text ≠ normSnippetKey b.text)
    ∧ ∀ s ∈ extract_snippets_by_document documents query maxPerDoc,
        ∃ doc ∈ documents, ∃ cit0 : String,
          s.citation = "doc:" ++ doc.id ++ " " ++ cit0 := by
  refine ⟨List.length_take_le _ _, ?_, ?_⟩
  · exact List.Pairwise.sublist (List.take_sublist _ _)
      (uniqSnippetsAux_pairwise _ []).1
  · intro s hs
    have h1 : s ∈ _uniq_keep_order_snippets
        ((documents.flatMap (fun doc =>
          if doc.full_content = [] then []
          else (extract_snippets doc.full_content query maxPerDoc 450).map
            (fun s => { s with citation := "doc:" ++ doc.id ++ " " ++ s.citation }))).insertionSort
              snippetGE) := List.take_subset _ _ hs
    have h2 := uniqSnippetsAux_subset _ [] s h1
    have h3 : s ∈ documents.flatMap (fun doc =>
        if doc.full_content = [] then []
        else (extract_snippets doc.full_content query maxPerDoc 450).map
          (fun s => { s with citation := "doc:" ++ doc.id ++ " " ++ s.citation })) :=
      (List.perm_insertionSort snippetGE _).subset h2
    obtain ⟨doc, hdoc, hmem⟩ := List.mem_flatMap.mp h3
    by_cases hc : doc.full_content = []
    · rw [if_pos hc] at hmem
      simp at hmem
    · rw [if_neg hc] at hmem
      obtain ⟨s0, _, he⟩ := List.mem_map.mp hmem
      exact ⟨doc, hdoc, s0.citation, by rw [← he]⟩

/-- Witness for C8's theorem at a concrete single-document corpus. -/
theorem claim_C8_multi_document_cap_witness :
    ∃ doc ∈ [DocumentRec.mk "7" (String.toList "fever")], ∃ cit0 : String,
      (DocumentSnippet.mk "fever" "doc:7 L0-5" 1).citation =
        "doc:" ++ doc.id ++ " " ++ cit0 :=
  (claim_C8_multi_document_cap [DocumentRec.mk "7" (String.toList "fever")]
    (String.toList "fever") 3).2.2
    (DocumentSnippet.mk "fever" "doc:7 L0-5" 1) (by decide)

theorem phiFold_flag_mono (pats : List (List Pat × List Char)) :
    ∀ acc : List Char × Bool, acc.2 = true → (pats.foldl phiStep acc).2 = true := by
  induction pats with
  | nil => intro acc h; exact h
  | cons pr rest ih =>
    intro acc h
    rw [List.foldl_cons]
    apply ih
    unfold phiStep
    by_cases hm : hasMatch pr.1 acc.1 = true
    · rw [if_pos hm]
    · rw [if_neg hm]
      exact h

theorem phiFold_false (pats : List (List Pat × List Char)) :
    ∀ t b, (pats.foldl phiStep (t, b)).2 = false → (pats.foldl phiStep (t, b)).1 = t := by
  induction pats with
  | nil => intro t b _; rfl
  | cons pr rest ih =>
    intro t b hf
    rw [List.foldl_cons] at hf ⊢
    by_cases hm : hasMatch pr.1 t = true
    · have hstep : phiStep (t, b) pr = (subAll pr.1 pr.2 t, true) := by
        unfold phiStep
        rw [if_pos hm]
      rw [hstep] at hf
      rw [phiFold_flag_mono rest _ rfl] at hf
      simp at hf
    · have hstep : phiStep (t, b) pr = (t, b) := by
        unfold phiStep
        rw [if_neg hm]
      rw [hstep] at hf ⊢
      exact ih t b hf

theorem phiFold_flag_iff (pats : List (List Pat × List Char)) :
    ∀ t, ((pats.foldl phiStep (t, false)).2 = true ↔
      ∃ i < pats.length,
        hasMatch ((pats.getD i ([], [])).1)
          ((pats.take i).foldl phiStep (t, false)).1 = true) := by
  induction pats with
  | nil => intro t; simp
  | cons pr rest ih =>
    intro t
    rw [List.foldl_cons]
    by_cases hm : hasMatch pr.1 t = true
    · have hstep : phiStep (t, false) pr = (subAll pr.1 pr.2 t, true) := by
        unfold phiStep
        rw [if_pos hm]
      constructor
      · intro _
        exact ⟨0, by simp, by simpa using hm⟩
      · intro _
        rw [hstep]
        exact phiFold_flag_mono rest _ rfl
    · have hstep : phiStep (t, false) pr = (t, false) := by
        unfold phiStep
        rw [if_neg hm]
      rw [hstep, ih t]
      constructor
      · rintro ⟨i, hi, hmatch⟩
        refine ⟨i + 1, by simpa using Nat.succ_lt_succ hi, ?_⟩
        have htake : ((pr :: rest).take (i + 1)).foldl phiStep (t, false) =
            (rest.take i).foldl phiStep (t, false) := by
          rw [List.take_succ_cons, List.foldl_cons, hstep]
        rw [List.getD_cons_succ, htake]
        exact hmatch
      · rintro ⟨i, hi, hmatch⟩
        match i, hi with
        | 0, _ =>
          rw [List.getD_cons_zero] at hmatch
          simp only [List.take_zero, List.foldl_nil] at hmatch
          exact absurd hmatch hm
        | i + 1, hi =>
          refine ⟨i, by simpa using hi, ?_⟩
          have htake : ((pr :: rest).take (i + 1)).foldl phiStep (t, false) =
              (rest.take i).foldl phiStep (t, false) := by
            rw [List.take_succ_cons, List.foldl_cons, hstep]
          rw [List.getD_cons_succ, htake] at hmatch
          exact hmatch

/-- Claim C9: `deidentify_phi` replaces each matched PHI span with its
category's fixed sentinel — on `"SSN: 123-45-6789"` the output contains
`[REDACTED_SSN]` and not the digits, on `"Contact: jane@example.com"` it
contains `[REDACTED_EMAIL]`, and on `"Call (555) 123-4567"` it contains
`[REDACTED_PHONE]` — and `redactions_applied` is true iff at least one
substitution occurred (no pattern matched at its stage iff the flag is
false, in which case the text is returned unchanged). -/
theorem claim_C9_phi_redaction :
    (deidentify_phi (String.toList "SSN: 123-45-6789") =
        (String.toList "SSN: [REDACTED_SSN]", true)
      ∧ List.IsInfix (String.toList "[REDACTED_SSN]")
          (deidentify_phi (String.toList "SSN: 123-45-6789")).1
      ∧ ¬ List.IsInfix (String.toList "123-45-6789")
          (deidentify_phi (String.toList "SSN: 123-45-6789")).1)
    ∧ (deidentify_phi (String.toList "Contact: jane@example.com") =
        (String.toList "Contact: [REDACTED_EMAIL]", true)
      ∧ List.IsInfix (String.toList "[REDACTED_EMAIL]")
          (deidentify_phi (String.toList "Contact: jane@example.com")).1)
    ∧ (deidentify_phi (String.toList "Call (555) 123-4567") =
        (String.toList "Call [REDACTED_PHONE]", true)
      ∧ List.IsInfix (String.toList "[REDACTED_PHONE]")
          (deidentify_phi (String.toList "Call (555) 123-4567")).1)
    ∧ (∀ t, (deidentify_phi t).2 = false → (deidentify_phi t).1 = t)
    ∧ (∀ t, (deidentify_phi t).2 = true ↔
        ∃ i < phiPatterns.length,
          hasMatch ((phiPatterns.getD i ([], [])).1) (phiStageText i t) = true) := by
  refine ⟨⟨by decide, by decide, by decide⟩, ⟨by decide, by decide⟩,
    ⟨by decide, by decide⟩, ?_, ?_⟩
  · intro t
    exact phiFold_false phiPatterns t false
  · intro t
    exact phiFold_flag_iff phiPatterns t

/-- Witness for C9's general clause at a concrete input: no pattern
matches `"hello"`, the flag is false, and the text comes back unchanged. -/
theorem claim_C9_phi_redaction_witness :
    (deidentify_phi (String.toList "hello")).1 = String.toList "hello" :=
  claim_C9_phi_redaction.2.2.2.1 (String.toList "hello") (by decide)

end MediVise
